import Mathlib

/-!
# ttlcache: an in-memory TTL cache

A shallow embedding of `cache.go` and `config.go`.

* `time.Time` and `time.Duration` are integers (nanoseconds); the clock reading
  `time.Now()` taken inside `Set` is an explicit argument `now`.
* The key types are those of Go's constraint `comparable`.  Go's `==` on such a
  type is symmetric and transitive, and reflexive except at values such as a
  floating-point NaN.  A key type `K` holds the Go values up to `==`, and
  `comparable.selfEq k` tells whether `k == k`; `goEq` is Go's `==` on keys.
* A Go `map[K]V` is an association list without an order of its own: `m[k]`
  finds the binding whose key is `==` to `k`, `m[k] = v` puts the binding in
  front after dropping the binding with a key `==` to `k`, `delete(m, k)` drops
  that binding, `len(m)` is the number of bindings.  A key that is not `==` to
  itself is never found and never dropped, and every write of it adds a
  binding.  All three keep the keys pairwise not `==`, starting from the empty
  map built by `New`.
* An `error` is `Option String` (`none` is `nil`), a `*Config` is
  `Option Config` (`none` is the nil pointer), a panic is `Except.error`.
* A `chan struct{}` is one of: the nil channel, an open channel, a closed one.
* The mutex is not modelled: every operation is one atomic state transformer.
* The collector goroutine started by `New` is not a field of the state: each of
  its wake-ups is a call `garbageCollect(now)`, the step `Op.sweep now` of a run.
-/

namespace ttlcache

/-! ## Go keys -/

/-- The constraint `comparable`: `selfEq k` tells whether `k == k` holds in Go
(it fails for a floating-point NaN). -/
class comparable (K : Type) where
  selfEq : K → Bool

/-- The operator `==` on keys: the same value, and one that is `==` to itself. -/
def goEq {K : Type} [DecidableEq K] [comparable K] (a b : K) : Bool :=
  comparable.selfEq a && decide (a = b)

/-- Every `string` is `==` to itself. -/
instance comparableString : comparable String where
  selfEq := fun _ => true

/-- The key type `float64`, as far as its `==` matters: NaN, and the values
that are `==` to themselves, here the ones given by an integer. -/
inductive float64 where
  | NaN
  | ofInt (n : Int)
  deriving DecidableEq, Repr

/-- On `float64`, `NaN == NaN` is false. -/
instance comparableFloat64 : comparable float64 where
  selfEq := fun x =>
    match x with
    | float64.NaN => false
    | float64.ofInt _ => true

/-! ## Go maps -/

/-- The Go builtin `map[K]V`. -/
abbrev GoMap (K V : Type) := List (K × V)

/-- The lookup `v, ok := m[k]`, with `none` for `ok = false`. -/
def mapGet {K V : Type} [DecidableEq K] [comparable K] : GoMap K V → K → Option V
  | [], _ => none
  | (k', v) :: rest, k => if goEq k' k then some v else mapGet rest k

/-- The builtin `delete(m, k)`. -/
def mapDelete {K V : Type} [DecidableEq K] [comparable K] (m : GoMap K V) (k : K) : GoMap K V :=
  m.filter (fun kv => !goEq kv.1 k)

/-- The assignment `m[k] = v`. -/
def mapSet {K V : Type} [DecidableEq K] [comparable K] (m : GoMap K V) (k : K) (v : V) : GoMap K V :=
  (k, v) :: mapDelete m k

/-- The builtin `len(m)`. -/
def mapLen {K V : Type} (m : GoMap K V) : Int :=
  (m.length : Int)

/-! ## Go channels -/

/-- The states of a `chan struct{}` value. -/
inductive Chan where
  | nil
  | ready
  | closed
  deriving DecidableEq, Repr

/-- The builtin `close(ch)`: closing the nil channel or a closed channel panics. -/
def Chan.close : Chan → Except String Chan
  | Chan.nil => Except.error "close of nil channel"
  | Chan.ready => Except.ok Chan.closed
  | Chan.closed => Except.error "close of closed channel"

/-! ## config.go -/

/-- The struct `Config`. -/
structure Config where
  TTL : Int
  GCInterval : Int
  MaxSize : Int
  deriving DecidableEq, Repr

/-- The variable `DefaultConfig`: 30 seconds, 5 seconds, unlimited. -/
def DefaultConfig : Option Config :=
  some { TTL := 30 * 1000000000, GCInterval := 5 * 1000000000, MaxSize := 0 }

/-- The method `(*Config).validate`. -/
def Config.validate : Option Config → Option String
  | none => some "nil"
  | some c =>
    if c.TTL < 1 then some "non-positive ttl"
    else if c.GCInterval < 1 then some "non-positive gc interval"
    else none

/-! ## cache.go -/

/-- The struct `expiryEntry[K]`. -/
structure expiryEntry (K : Type) where
  key : K
  expiry : Int
  deriving DecidableEq, Repr

/-- The struct `Cache[K, V]`, without its mutex. -/
structure Cache (K V : Type) where
  stop : Chan
  name : String
  entries : GoMap K V
  expiries : List (expiryEntry K)
  ttl : Int
  gcInterval : Int
  maxSize : Int

/-- The function `New`: the fields not named in the composite literal (`stop`,
`expiries`) keep their zero values, the nil channel and the nil slice. -/
def New (K V : Type) (name : String) (cfg : Option Config) : Except String (Cache K V) :=
  match Config.validate cfg with
  | some err => Except.error ("invalid cache config: " ++ err)
  | none =>
    match cfg with
    | none => Except.error "invalid memory address or nil pointer dereference"
    | some c =>
      Except.ok
        { stop := Chan.nil
          name := name
          entries := []
          expiries := []
          ttl := c.TTL
          gcInterval := c.GCInterval
          maxSize := c.MaxSize }

/-- The method `Get`: the value and `true`, or the zero value and `false`. -/
def Cache.Get {K V : Type} [DecidableEq K] [comparable K] [Inhabited V] (c : Cache K V) (k : K) : V × Bool :=
  match mapGet c.entries k with
  | some v => (v, true)
  | none => (default, false)

/-- The method `Set`, with the reading of `time.Now()` as `now`.  The queue
holds the appended record when `expiries[0]` is read, so the branch for the
empty queue is never taken. -/
def Cache.Set {K V : Type} [DecidableEq K] [comparable K] (c : Cache K V) (now : Int) (k : K) (v : V) :
    Cache K V :=
  let entries := mapSet c.entries k v
  let expiries := c.expiries ++ [{ key := k, expiry := now + c.ttl }]
  if c.maxSize > 0 ∧ mapLen entries > c.maxSize then
    match expiries with
    | [] => { c with entries := entries, expiries := expiries }
    | e :: rest => { c with entries := mapDelete entries e.key, expiries := rest }
  else
    { c with entries := entries, expiries := expiries }

/-- The method `Delete`. -/
def Cache.Delete {K V : Type} [DecidableEq K] [comparable K] (c : Cache K V) (k : K) : Cache K V :=
  { c with entries := mapDelete c.entries k }

/-- The method `StopGarbageCollection`: `close(c.stop)`. -/
def Cache.StopGarbageCollection {K V : Type} (c : Cache K V) : Except String (Cache K V) :=
  match c.stop.close with
  | Except.ok ch => Except.ok { c with stop := ch }
  | Except.error msg => Except.error msg

/-- The loop of `garbageCollect`: the store and the slice `c.expiries[i:]` when
the loop leaves. -/
def gcScan {K V : Type} [DecidableEq K] [comparable K] (now : Int) :
    List (expiryEntry K) → GoMap K V → GoMap K V × List (expiryEntry K)
  | [], m => (m, [])
  | e :: rest, m =>
    if e.expiry < now then gcScan now rest (mapDelete m e.key) else (m, e :: rest)

/-- The method `garbageCollect`. -/
def Cache.garbageCollect {K V : Type} [DecidableEq K] [comparable K] (c : Cache K V) (now : Int) : Cache K V :=
  { c with
    entries := (gcScan now c.expiries c.entries).1
    expiries := (gcScan now c.expiries c.entries).2 }

/-! ## Runs -/

/-- One operation on a cache: a `Set` with its clock reading, a `Delete`, or a
sweep of the collector with its clock reading. -/
inductive Op (K V : Type) where
  | set (now : Int) (k : K) (v : V)
  | delete (k : K)
  | sweep (now : Int)

/-- Apply one operation. -/
def Cache.step {K V : Type} [DecidableEq K] [comparable K] (c : Cache K V) : Op K V → Cache K V
  | Op.set now k v => c.Set now k v
  | Op.delete k => c.Delete k
  | Op.sweep now => c.garbageCollect now

/-- Apply a sequence of operations, first to last. -/
def Cache.run {K V : Type} [DecidableEq K] [comparable K] (c : Cache K V) (ops : List (Op K V)) : Cache K V :=
  ops.foldl Cache.step c

/-- The clock readings of the `Set` calls of a run, in order. -/
def setClocks {K V : Type} : List (Op K V) → List Int
  | [] => []
  | Op.set now _ _ :: ops => now :: setClocks ops
  | _ :: ops => setClocks ops

/-- The clock reading of the most recent `Set` on `k` in a run. -/
def lastSet {K V : Type} [DecidableEq K] (ops : List (Op K V)) (k : K) : Option Int :=
  ops.foldl
    (fun acc op =>
      match op with
      | Op.set now k' _ => if k' = k then some now else acc
      | _ => acc)
    none

/-- Whether an operation is a `Set` on the key `k`. -/
def Op.isSetOn {K V : Type} [DecidableEq K] (k : K) : Op K V → Bool
  | Op.set _ j _ => decide (j = k)
  | _ => false

/-- Whether the key an operation sets, if it is a `Set`, is `==` to itself. -/
def Op.selfEqKey {K V : Type} [comparable K] : Op K V → Bool
  | Op.set _ k _ => comparable.selfEq k
  | _ => true

/-! ## The sweep in the words of the specification -/

/-- The longest leading run of records whose expiry is strictly before `now`. -/
def expiredRun {K : Type} (now : Int) (q : List (expiryEntry K)) : List (expiryEntry K) :=
  q.takeWhile (fun e => decide (e.expiry < now))

/-- The sweep as the specification words it: the queue is the old queue with
its longest leading run of records expiring strictly before `now` removed, the
store is the old store with exactly the keys of the removed records deleted:
a binding stays when no removed record has a key `==` to its key. -/
def sweepSpec {K V : Type} [DecidableEq K] [comparable K] (c : Cache K V) (now : Int) : Cache K V :=
  { c with
    entries := c.entries.filter
      (fun kv => !(expiredRun now c.expiries).any (fun e => goEq kv.1 e.key))
    expiries := c.expiries.drop (expiredRun now c.expiries).length }

/-! ## Sequences of `Set` calls -/

/-- One `Set` call: its clock reading, key and value. -/
structure SetCall (K V : Type) where
  now : Int
  key : K
  value : V

/-- The store binding a `Set` call writes. -/
def SetCall.binding {K V : Type} (s : SetCall K V) : K × V :=
  (s.key, s.value)

/-- The expiry record a `Set` call appends in a cache with the given TTL. -/
def SetCall.record {K V : Type} (ttl : Int) (s : SetCall K V) : expiryEntry K :=
  { key := s.key, expiry := s.now + ttl }

/-- The run that makes the given `Set` calls, in order. -/
def setOps {K V : Type} (calls : List (SetCall K V)) : List (Op K V) :=
  calls.map (fun s => Op.set s.now s.key s.value)

/-- The last `n` elements of a list (all of it when it has fewer). -/
def lastCalls {α : Type} (n : Nat) (calls : List α) : List α :=
  calls.drop (calls.length - n)

/-! ## Sample states -/

/-- The cache `New` builds from TTL 10, GC interval 1 and no size bound. -/
def freshCache : Cache String String :=
  { stop := Chan.nil
    name := "c"
    entries := []
    expiries := []
    ttl := 10
    gcInterval := 1
    maxSize := 0 }

/-- A cache with one stale record in its queue: `"a"` was set and deleted,
`"b"` is live. -/
def staleCache : Cache String String :=
  { stop := Chan.nil
    name := "c"
    entries := [("b", "2")]
    expiries := [{ key := "a", expiry := 10 }, { key := "b", expiry := 11 }]
    ttl := 10
    gcInterval := 1
    maxSize := 0 }

/-- A state whose queue is not in ascending order of expiry. -/
def unsortedCache : Cache String String :=
  { stop := Chan.nil
    name := "c"
    entries := [("a", "1"), ("b", "2"), ("c", "3")]
    expiries := [{ key := "a", expiry := 10 }, { key := "b", expiry := 12 },
      { key := "c", expiry := 5 }]
    ttl := 10
    gcInterval := 1
    maxSize := 0 }

/-- The cache `New` builds from TTL 10, GC interval 1 and `MaxSize = 2`. -/
def boundedCache : Cache String String :=
  { stop := Chan.nil
    name := "c"
    entries := []
    expiries := []
    ttl := 10
    gcInterval := 1
    maxSize := 2 }

/-! ## Lemmas on Go maps -/

section MapLemmas

variable {K V : Type} [DecidableEq K] [comparable K]

theorem goEq_iff (a b : K) : goEq a b = true ↔ comparable.selfEq a = true ∧ a = b := by
  simp [goEq]

theorem goEq_of_ne {a b : K} (h : a ≠ b) : goEq a b = false := by
  simp [goEq, h]

theorem goEq_self (k : K) (h : comparable.selfEq k = true) : goEq k k = true := by
  simp [goEq, h]

theorem goEq_symm (a b : K) : goEq a b = goEq b a := by
  by_cases h : a = b
  · subst h; rfl
  · rw [goEq_of_ne h, goEq_of_ne (fun e => h e.symm)]

theorem mapGet_cons (a : K) (b : V) (m : GoMap K V) (k : K) :
    mapGet ((a, b) :: m) k = if goEq a k = true then some b else mapGet m k := rfl

theorem mapDelete_cons (a : K) (b : V) (m : GoMap K V) (k : K) :
    mapDelete ((a, b) :: m) k
      = if goEq a k = true then mapDelete m k else (a, b) :: mapDelete m k := by
  by_cases h : goEq a k = true <;> simp [mapDelete, List.filter_cons, h]

theorem mapGet_mapDelete_self (m : GoMap K V) (k : K) : mapGet (mapDelete m k) k = none := by
  induction m with
  | nil => rfl
  | cons kv rest ih =>
    obtain ⟨a, b⟩ := kv
    rw [mapDelete_cons]
    by_cases h : goEq a k = true
    · rw [if_pos h]; exact ih
    · rw [if_neg h, mapGet_cons, if_neg h]; exact ih

theorem mapGet_mapDelete_of_ne (m : GoMap K V) {k j : K} (h : j ≠ k) :
    mapGet (mapDelete m k) j = mapGet m j := by
  induction m with
  | nil => rfl
  | cons kv rest ih =>
    obtain ⟨a, b⟩ := kv
    rw [mapDelete_cons]
    by_cases hk : goEq a k = true
    · have hak : a = k := ((goEq_iff a k).1 hk).2
      have hj : ¬ goEq a j = true := by
        rw [goEq_of_ne (fun e => h (e.symm.trans hak))]
        simp
      rw [if_pos hk, mapGet_cons, if_neg hj]; exact ih
    · rw [if_neg hk, mapGet_cons, mapGet_cons, ih]

theorem mapDelete_of_absent (m : GoMap K V) (k : K) (h : mapGet m k = none) :
    mapDelete m k = m := by
  induction m with
  | nil => rfl
  | cons kv rest ih =>
    obtain ⟨a, b⟩ := kv
    rw [mapGet_cons] at h
    by_cases hk : goEq a k = true
    · rw [if_pos hk] at h; cases h
    · rw [if_neg hk] at h
      rw [mapDelete_cons, if_neg hk, ih h]

/-- A key that is not `==` to itself is never found. -/
theorem mapGet_of_not_selfEq (m : GoMap K V) (k : K) (h : comparable.selfEq k = false) :
    mapGet m k = none := by
  induction m with
  | nil => rfl
  | cons kv rest ih =>
    obtain ⟨a, b⟩ := kv
    have hk : ¬ goEq a k = true := by
      intro hg
      obtain ⟨hs, hak⟩ := (goEq_iff a k).1 hg
      rw [hak, h] at hs
      cases hs
    rw [mapGet_cons, if_neg hk]
    exact ih

theorem mapGet_mapSet_self (m : GoMap K V) (k : K) (v : V) (hk : comparable.selfEq k = true) :
    mapGet (mapSet m k v) k = some v := by
  rw [mapSet, mapGet_cons, if_pos (goEq_self k hk)]

theorem mapGet_mapSet_of_ne (m : GoMap K V) {k j : K} (v : V) (h : j ≠ k) :
    mapGet (mapSet m k v) j = mapGet m j := by
  have hk : ¬ goEq k j = true := by
    rw [goEq_of_ne (fun e => h e.symm)]
    simp
  rw [mapSet, mapGet_cons, if_neg hk, mapGet_mapDelete_of_ne m h]

/-- A later `delete` can only remove bindings. -/
theorem mapGet_mapDelete_some (m : GoMap K V) {k j : K} {v : V}
    (h : mapGet (mapDelete m k) j = some v) : mapGet m j = some v := by
  by_cases hj : j = k
  · subst hj
    rw [mapGet_mapDelete_self] at h
    cases h
  · rwa [mapGet_mapDelete_of_ne m hj] at h

end MapLemmas

/-! ## Delete -/

section DeleteFrame

variable {K V : Type} [DecidableEq K] [comparable K] [Inhabited V]

/-- C8: `Delete(k)` makes `Get(k)` return the zero value and `false`, leaves the
result of `Get` on every other key as it was, leaves the expiry queue exactly as
it was, and changes nothing at all when `k` was absent. -/
theorem Delete_frame (c : Cache K V) (k : K) :
    (c.Delete k).Get k = (default, false) ∧
    (∀ j : K, j ≠ k → (c.Delete k).Get j = c.Get j) ∧
    (c.Delete k).expiries = c.expiries ∧
    ((c.Get k).2 = false → c.Delete k = c) := by
  refine ⟨?_, ?_, rfl, ?_⟩
  · simp [Cache.Delete, Cache.Get, mapGet_mapDelete_self]
  · intro j hj
    simp [Cache.Delete, Cache.Get, mapGet_mapDelete_of_ne c.entries hj]
  · intro h
    have habs : mapGet c.entries k = none := by
      cases hg : mapGet c.entries k with
      | none => rfl
      | some v => simp [Cache.Get, hg] at h
    cases c
    simp only [Cache.Delete] at habs ⊢
    simp [mapDelete_of_absent _ _ habs]

end DeleteFrame

/-- Witness of C8 on `staleCache`: `"x"` is absent, and deleting it changes
nothing. -/
theorem Delete_frame_witness :
    (staleCache.Get "x").2 = false ∧ staleCache.Delete "x" = staleCache :=
  ⟨by decide, (Delete_frame staleCache "x").2.2.2 (by decide)⟩

/-! ## New -/

/-- C9: `New` fails exactly when the configuration is nil, or its TTL is zero
or negative, or its GC interval is zero or negative; `MaxSize` plays no part,
and every other configuration yields a cache. -/
theorem New_error_iff (K V : Type) (name : String) (cfg : Option Config) :
    ((∃ msg, New K V name cfg = Except.error msg) ↔
      (cfg = none ∨ ∃ c, cfg = some c ∧ (c.TTL ≤ 0 ∨ c.GCInterval ≤ 0))) ∧
    (¬ (cfg = none ∨ ∃ c, cfg = some c ∧ (c.TTL ≤ 0 ∨ c.GCInterval ≤ 0)) →
      ∃ cache, New K V name cfg = Except.ok cache) := by
  cases cfg with
  | none => simp [New, Config.validate]
  | some c =>
    by_cases h1 : c.TTL < 1
    · have : c.TTL ≤ 0 := by omega
      simp [New, Config.validate, h1, this]
    · by_cases h2 : c.GCInterval < 1
      · have : c.GCInterval ≤ 0 := by omega
        simp [New, Config.validate, h1, h2, this]
      · have h1' : ¬ c.TTL ≤ 0 := by omega
        have h2' : ¬ c.GCInterval ≤ 0 := by omega
        simp [New, Config.validate, h1, h2, h1', h2']

/-- Witness of C9: a configuration with a negative `MaxSize` is accepted. -/
theorem New_error_iff_witness :
    ∃ cache, New String String "c" (some { TTL := 1, GCInterval := 1, MaxSize := -3 })
      = Except.ok cache :=
  (New_error_iff String String "c" (some { TTL := 1, GCInterval := 1, MaxSize := -3 })).2
    (by decide)

/-! ## Set without a size bound -/

section SetUnbounded

variable {K V : Type} [DecidableEq K] [comparable K] [Inhabited V]

/-- C10: with `MaxSize <= 0`, `Set(k, v)` leaves the result of `Get` on every
other key as it was and appends exactly the record `(k, now + TTL)` to the
expiry queue. -/
theorem Set_unbounded_frame (c : Cache K V) (h : c.maxSize ≤ 0) (now : Int) (k : K) (v : V) :
    (∀ j : K, j ≠ k → (c.Set now k v).Get j = c.Get j) ∧
    (c.Set now k v).expiries = c.expiries ++ [{ key := k, expiry := now + c.ttl }] := by
  have hm : ¬ c.maxSize > 0 := by omega
  constructor
  · intro j hj
    simp [Cache.Set, hm, Cache.Get, mapGet_mapSet_of_ne c.entries v hj]
  · simp [Cache.Set, hm]

end SetUnbounded

/-- Witness of C10 on `staleCache`, whose `MaxSize` is 0. -/
theorem Set_unbounded_frame_witness :
    staleCache.maxSize ≤ 0 ∧
    (staleCache.Set 5 "k" "v").Get "b" = staleCache.Get "b" ∧
    (staleCache.Set 5 "k" "v").expiries
      = staleCache.expiries ++ [{ key := "k", expiry := 5 + staleCache.ttl }] :=
  ⟨by decide,
    (Set_unbounded_frame staleCache (by decide) 5 "k" "v").1 "b" (by decide),
    (Set_unbounded_frame staleCache (by decide) 5 "k" "v").2⟩

/-! ## The size guard and stale records

`Set` evicts by the head record of the expiry queue.  A record whose key was
set again, deleted or evicted earlier stays in the queue, so the head record
need not name the oldest live entry.  The evaluations below start from `New`.
-/

/-- C1: with `MaxSize = 1`, after `Set("a")`, `Set("a")`, `Set("b")` the queue
starts with a stale record of `"a"`; the next `Set("a", "4")` inserts `"a"` and
then evicts it by that record, so the `Get("a")` that follows returns the zero
value and `false`. -/
theorem Set_then_Get_evicted :
    ∃ c : Cache String String,
      New String String "c" (some { TTL := 10, GCInterval := 1, MaxSize := 1 }) = Except.ok c ∧
      (c.run [Op.set 0 "a" "1", Op.set 1 "a" "2", Op.set 2 "b" "3"]).expiries
        = [{ key := "a", expiry := 11 }, { key := "b", expiry := 12 }] ∧
      ((c.run [Op.set 0 "a" "1", Op.set 1 "a" "2", Op.set 2 "b" "3"]).Set 3 "a" "4").Get "a"
        = ("", false) :=
  ⟨_, rfl, by decide, by decide⟩

/-- C2: with `MaxSize = 1`, after `Set("a")`, `Set("a")`, `Set("b")`, `Set("c")`
the last `Set` evicts by a stale record of `"a"`, which removes nothing, and
returns with two entries in the store. -/
theorem Set_exceeds_MaxSize :
    ∃ c : Cache String String,
      New String String "c" (some { TTL := 10, GCInterval := 1, MaxSize := 1 }) = Except.ok c ∧
      (c.run [Op.set 0 "a" "1", Op.set 1 "a" "2", Op.set 2 "b" "3", Op.set 3 "c" "4"]).entries
        = [("c", "4"), ("b", "3")] ∧
      mapLen (c.run [Op.set 0 "a" "1", Op.set 1 "a" "2", Op.set 2 "b" "3",
        Op.set 3 "c" "4"]).entries = 2 ∧
      (c.run [Op.set 0 "a" "1", Op.set 1 "a" "2", Op.set 2 "b" "3", Op.set 3 "c" "4"]).maxSize
        = 1 :=
  ⟨_, rfl, by decide, by decide, by decide⟩

/-- C3: with `MaxSize = 2`, after `Set("a")` at 1, `Set("b")` at 2 and
`Set("a")` at 3 the oldest live entry is `"b"`; `Set("c")` at 4 exceeds the
bound and removes `"a"`, keeping `"b"`. -/
theorem Set_evicts_refreshed_key :
    ∃ c : Cache String String,
      New String String "c" (some { TTL := 10, GCInterval := 1, MaxSize := 2 }) = Except.ok c ∧
      lastSet [(Op.set 1 "a" "1" : Op String String), Op.set 2 "b" "2", Op.set 3 "a" "3"] "a"
        = some 3 ∧
      lastSet [(Op.set 1 "a" "1" : Op String String), Op.set 2 "b" "2", Op.set 3 "a" "3"] "b"
        = some 2 ∧
      (c.run [Op.set 1 "a" "1", Op.set 2 "b" "2", Op.set 3 "a" "3"]).entries
        = [("a", "3"), ("b", "2")] ∧
      ((c.run [Op.set 1 "a" "1", Op.set 2 "b" "2", Op.set 3 "a" "3"]).Set 4 "c" "4").entries
        = [("c", "4"), ("b", "2")] :=
  ⟨_, rfl, by decide, by decide, by decide, by decide⟩

/-! ## StopGarbageCollection -/

/-- C4: `New` leaves the field `stop` at its zero value, the nil channel, so on
every cache `New` returns `StopGarbageCollection` panics with "close of nil
channel" instead of stopping the collector. -/
theorem StopGarbageCollection_panics (K V : Type) (name : String) (cfg : Option Config)
    (c : Cache K V) (hnew : New K V name cfg = Except.ok c) :
    c.stop = Chan.nil ∧ c.StopGarbageCollection = Except.error "close of nil channel" := by
  have hstop : c.stop = Chan.nil := by
    unfold New at hnew
    split at hnew
    · cases hnew
    · split at hnew
      · cases hnew
      · cases hnew; rfl
  refine ⟨hstop, ?_⟩
  simp [Cache.StopGarbageCollection, hstop, Chan.close]

/-- Witness of C4 on the cache built from `DefaultConfig`. -/
theorem StopGarbageCollection_panics_witness :
    ∃ c : Cache String String,
      New String String "c" DefaultConfig = Except.ok c ∧
      c.StopGarbageCollection = Except.error "close of nil channel" :=
  ⟨_, rfl, (StopGarbageCollection_panics String String "c" DefaultConfig _ rfl).2⟩

/-! ## Early expiry through stale records -/

/-- C6: with `TTL = 10` and no size bound, `"k"` is set at 0, deleted, and set
again at 9; the sweep at 11 (before 9 + 10) consumes the record left by the
first `Set` and removes `"k"`.  The same happens without a `Delete` when `"k"`
is set at 0 and again at 5 and the sweep runs at 12. -/
theorem sweep_removes_live_key :
    ∃ c : Cache String String,
      New String String "c" (some { TTL := 10, GCInterval := 1, MaxSize := 0 }) = Except.ok c ∧
      lastSet [(Op.set 0 "k" "v1" : Op String String), Op.delete "k", Op.set 9 "k" "v2"] "k"
        = some 9 ∧
      (c.run [Op.set 0 "k" "v1", Op.delete "k", Op.set 9 "k" "v2"]).Get "k" = ("v2", true) ∧
      ((c.run [Op.set 0 "k" "v1", Op.delete "k", Op.set 9 "k" "v2"]).garbageCollect 11).Get "k"
        = ("", false) ∧
      (c.run [Op.set 0 "k" "v1", Op.set 5 "k" "v2"]).Get "k" = ("v2", true) ∧
      ((c.run [Op.set 0 "k" "v1", Op.set 5 "k" "v2"]).garbageCollect 12).Get "k"
        = ("", false) :=
  ⟨_, rfl, by decide, by decide, by decide, by decide, by decide⟩

/-! ## Reachable states

The states reachable from a cache built by `New` are `c.run ops`.  The lemmas
are stated by induction on `ops` from its last operation.
-/

theorem New_ok {K V : Type} {name : String} {cfg : Option Config} {c : Cache K V}
    (hnew : New K V name cfg = Except.ok c) :
    ∃ conf : Config, cfg = some conf ∧ 0 < conf.TTL ∧ 0 < conf.GCInterval ∧
      c = { stop := Chan.nil, name := name, entries := [], expiries := [],
            ttl := conf.TTL, gcInterval := conf.GCInterval, maxSize := conf.MaxSize } := by
  cases cfg with
  | none => simp [New, Config.validate] at hnew
  | some conf =>
    by_cases h1 : conf.TTL < 1
    · simp [New, Config.validate, h1] at hnew
    · by_cases h2 : conf.GCInterval < 1
      · simp [New, Config.validate, h1, h2] at hnew
      · simp only [New, Config.validate, h1, h2, if_false] at hnew
        refine ⟨conf, rfl, by omega, by omega, ?_⟩
        cases hnew
        rfl

theorem setClocks_append {K V : Type} (l : List (Op K V)) (a : Op K V) :
    setClocks (l ++ [a]) = setClocks l ++ setClocks [a] := by
  induction l with
  | nil => rfl
  | cons b l ih => cases b <;> simp [setClocks, ih]

theorem lastSet_append_set {K V : Type} [DecidableEq K] (l : List (Op K V)) (now : Int) (j : K) (v : V) (k : K) :
    lastSet (l ++ [Op.set now j v]) k = if j = k then some now else lastSet l k := by
  simp [lastSet, List.foldl_append]

theorem lastSet_append_delete {K V : Type} [DecidableEq K] (l : List (Op K V)) (j : K) (k : K) :
    lastSet (l ++ [Op.delete j]) k = lastSet l k := by
  simp [lastSet, List.foldl_append]

theorem lastSet_append_sweep {K V : Type} [DecidableEq K] (l : List (Op K V)) (now : Int) (k : K) :
    lastSet (l ++ [Op.sweep now]) k = lastSet l k := by
  simp [lastSet, List.foldl_append]

section Reachable

variable {K V : Type} [DecidableEq K] [comparable K]

theorem run_append (c : Cache K V) (l : List (Op K V)) (a : Op K V) :
    c.run (l ++ [a]) = (c.run l).step a := by
  simp [Cache.run, List.foldl_append]

/-- The two ways `Set` can leave: without eviction, or with the head record
of the extended queue consumed and its key deleted. -/
theorem Set_cases (c : Cache K V) (now : Int) (k : K) (v : V) :
    (¬ (c.maxSize > 0 ∧ mapLen (mapSet c.entries k v) > c.maxSize) ∧
      (c.Set now k v).entries = mapSet c.entries k v ∧
      (c.Set now k v).expiries = c.expiries ++ [{ key := k, expiry := now + c.ttl }]) ∨
    ((c.maxSize > 0 ∧ mapLen (mapSet c.entries k v) > c.maxSize) ∧
      ∃ e rest, c.expiries ++ [{ key := k, expiry := now + c.ttl }] = e :: rest ∧
        (c.Set now k v).entries = mapDelete (mapSet c.entries k v) e.key ∧
        (c.Set now k v).expiries = rest) := by
  by_cases h : c.maxSize > 0 ∧ mapLen (mapSet c.entries k v) > c.maxSize
  · right
    refine ⟨h, ?_⟩
    cases hq : c.expiries ++ [({ key := k, expiry := now + c.ttl } : expiryEntry K)] with
    | nil => simp at hq
    | cons e rest =>
      refine ⟨e, rest, rfl, ?_, ?_⟩ <;> simp [Cache.Set, h, hq]
  · left
    refine ⟨h, ?_, ?_⟩ <;> simp [Cache.Set, h]

theorem Set_ttl (c : Cache K V) (now : Int) (k : K) (v : V) : (c.Set now k v).ttl = c.ttl := by
  by_cases h : c.maxSize > 0 ∧ mapLen (mapSet c.entries k v) > c.maxSize
  · cases hq : c.expiries ++ [({ key := k, expiry := now + c.ttl } : expiryEntry K)] with
    | nil => simp at hq
    | cons e rest => simp [Cache.Set, h, hq]
  · simp [Cache.Set, h]

theorem Set_maxSize (c : Cache K V) (now : Int) (k : K) (v : V) :
    (c.Set now k v).maxSize = c.maxSize := by
  by_cases h : c.maxSize > 0 ∧ mapLen (mapSet c.entries k v) > c.maxSize
  · cases hq : c.expiries ++ [({ key := k, expiry := now + c.ttl } : expiryEntry K)] with
    | nil => simp at hq
    | cons e rest => simp [Cache.Set, h, hq]
  · simp [Cache.Set, h]

theorem step_ttl (c : Cache K V) (a : Op K V) : (c.step a).ttl = c.ttl := by
  cases a with
  | set now k v => exact Set_ttl c now k v
  | delete k => rfl
  | sweep now => rfl

theorem step_maxSize (c : Cache K V) (a : Op K V) : (c.step a).maxSize = c.maxSize := by
  cases a with
  | set now k v => exact Set_maxSize c now k v
  | delete k => rfl
  | sweep now => rfl

theorem run_ttl (c : Cache K V) (ops : List (Op K V)) : (c.run ops).ttl = c.ttl := by
  induction ops using List.reverseRecOn with
  | nil => rfl
  | append_singleton l a ih => rw [run_append, step_ttl, ih]

theorem run_maxSize (c : Cache K V) (ops : List (Op K V)) :
    (c.run ops).maxSize = c.maxSize := by
  induction ops using List.reverseRecOn with
  | nil => rfl
  | append_singleton l a ih => rw [run_append, step_maxSize, ih]

/-- Every record in the queue after `Set` was there before or is the new one. -/
theorem Set_expiries_mem (c : Cache K V) (now : Int) (k : K) (v : V) (e : expiryEntry K)
    (he : e ∈ (c.Set now k v).expiries) :
    e ∈ c.expiries ∨ e = { key := k, expiry := now + c.ttl } := by
  have hmem : e ∈ c.expiries ++ [({ key := k, expiry := now + c.ttl } : expiryEntry K)] := by
    rcases Set_cases c now k v with ⟨_, _, hq⟩ | ⟨_, e', rest, hq, _, hr⟩
    · rwa [hq] at he
    · rw [hr] at he
      rw [hq]
      exact List.mem_cons_of_mem _ he
  simpa using hmem

/-! ### The sweep loop -/

theorem gcScan_suffix (now : Int) (q : List (expiryEntry K)) (m : GoMap K V) :
    (gcScan now q m).2 <:+ q := by
  induction q generalizing m with
  | nil => exact List.suffix_refl _
  | cons e rest ih =>
    unfold gcScan
    split
    · exact (ih _).trans (List.suffix_cons e rest)
    · exact List.suffix_refl _

theorem gcScan_fst_some (now : Int) (q : List (expiryEntry K)) (m : GoMap K V) (j : K) (v : V)
    (h : mapGet (gcScan now q m).1 j = some v) : mapGet m j = some v := by
  induction q generalizing m with
  | nil => exact h
  | cons e rest ih =>
    unfold gcScan at h
    split at h
    · exact mapGet_mapDelete_some m (ih _ h)
    · exact h

theorem gcScan_fst_none (now : Int) (q : List (expiryEntry K)) (m : GoMap K V) (j : K)
    (h : mapGet m j = none) : mapGet (gcScan now q m).1 j = none := by
  cases hg : mapGet (gcScan now q m).1 j with
  | none => rfl
  | some v => rw [gcScan_fst_some now q m j v hg] at h; cases h

/-- A record of the queue is either kept by the sweep, or its key is no longer
in the store. -/
theorem gcScan_mem (now : Int) (q : List (expiryEntry K)) (m : GoMap K V) (e : expiryEntry K)
    (he : e ∈ q) :
    e ∈ (gcScan now q m).2 ∨ mapGet (gcScan now q m).1 e.key = none := by
  induction q generalizing m with
  | nil => cases he
  | cons e' rest ih =>
    unfold gcScan
    split
    · rcases List.mem_cons.1 he with rfl | hr
      · right
        exact gcScan_fst_none now rest _ _ (mapGet_mapDelete_self m e.key)
      · exact ih _ hr
    · left; exact he

/-- After a sweep of a queue in ascending order every record left has its
expiry at `now` or later. -/
theorem gcScan_snd_ge (now : Int) (q : List (expiryEntry K)) (m : GoMap K V)
    (hs : q.Pairwise (fun a b => a.expiry ≤ b.expiry)) :
    ∀ e ∈ (gcScan now q m).2, now ≤ e.expiry := by
  induction q generalizing m with
  | nil => intro e he; cases he
  | cons e' rest ih =>
    rw [List.pairwise_cons] at hs
    unfold gcScan
    split
    · exact ih _ hs.2
    · rename_i hlt
      intro e he
      rcases List.mem_cons.1 he with rfl | hr
      · omega
      · have := hs.1 e hr
        omega

/-! ### Invariants of a run -/

/-- Every record in the queue carries the clock reading of a `Set` of the run
plus the TTL. -/
theorem run_expiries_from_clocks (c : Cache K V) (h0 : c.expiries = [])
    (ops : List (Op K V)) :
    ∀ e ∈ (c.run ops).expiries, ∃ t ∈ setClocks ops, e.expiry = t + c.ttl := by
  induction ops using List.reverseRecOn with
  | nil =>
    intro e he
    simp [Cache.run, h0] at he
  | append_singleton l a ih =>
    intro e he
    rw [run_append] at he
    rw [setClocks_append]
    cases a with
    | set now k v =>
      rcases Set_expiries_mem _ now k v e he with hq | rfl
      · obtain ⟨t, ht, hte⟩ := ih e hq
        exact ⟨t, List.mem_append_left _ ht, hte⟩
      · refine ⟨now, List.mem_append_right _ (by simp [setClocks]), ?_⟩
        simp [run_ttl]
    | delete k =>
      obtain ⟨t, ht, hte⟩ := ih e he
      exact ⟨t, List.mem_append_left _ ht, hte⟩
    | sweep now =>
      obtain ⟨t, ht, hte⟩ := ih e ((gcScan_suffix now _ _).subset he)
      exact ⟨t, List.mem_append_left _ ht, hte⟩

/-- With non-decreasing `Set` clocks the queue is in ascending order of expiry. -/
theorem run_expiries_pairwise (c : Cache K V) (h0 : c.expiries = []) (ops : List (Op K V))
    (hmono : (setClocks ops).Pairwise (fun a b => a ≤ b)) :
    (c.run ops).expiries.Pairwise (fun a b => a.expiry ≤ b.expiry) := by
  induction ops using List.reverseRecOn with
  | nil => simp [Cache.run, h0]
  | append_singleton l a ih =>
    rw [setClocks_append, List.pairwise_append] at hmono
    obtain ⟨hl, _, hcross⟩ := hmono
    have ihl := ih hl
    rw [run_append]
    cases a with
    | set now k v =>
      have hext : ((c.run l).expiries ++
          [({ key := k, expiry := now + (c.run l).ttl } : expiryEntry K)]).Pairwise
            (fun a b => a.expiry ≤ b.expiry) := by
        rw [List.pairwise_append]
        refine ⟨ihl, List.pairwise_singleton _ _, ?_⟩
        intro a ha b hb
        rw [List.mem_singleton] at hb
        subst hb
        obtain ⟨t, ht, hte⟩ := run_expiries_from_clocks c h0 l a ha
        have hle : t ≤ now := hcross t ht now (by simp [setClocks])
        simp only [run_ttl]
        omega
      rcases Set_cases (c.run l) now k v with ⟨_, _, hq⟩ | ⟨_, e, rest, hq, _, hr⟩
      · simp only [Cache.step]
        rw [hq]
        exact hext
      · simp only [Cache.step]
        rw [hr]
        rw [hq, List.pairwise_cons] at hext
        exact hext.2
    | delete k => exact ihl
    | sweep now => exact ihl.sublist (gcScan_suffix now _ _).sublist

/-- A key in the store has the record appended by its most recent `Set` in the
queue. -/
theorem run_live_key_record (c : Cache K V) (he : c.entries = []) (ops : List (Op K V)) :
    ∀ (k : K) (v : V), mapGet (c.run ops).entries k = some v →
      ∃ t, lastSet ops k = some t ∧
        ({ key := k, expiry := t + c.ttl } : expiryEntry K) ∈ (c.run ops).expiries := by
  induction ops using List.reverseRecOn with
  | nil =>
    intro k v h
    simp [Cache.run, he, mapGet] at h
  | append_singleton l a ih =>
    intro k v h
    rw [run_append] at h ⊢
    cases a with
    | set now j w =>
      simp only [Cache.step] at h ⊢
      have hext : ∀ v', mapGet (mapSet (c.run l).entries j w) k = some v' →
          ∃ t, lastSet (l ++ [Op.set now j w]) k = some t ∧
            ({ key := k, expiry := t + c.ttl } : expiryEntry K) ∈
              (c.run l).expiries ++ [{ key := j, expiry := now + (c.run l).ttl }] := by
        intro v' hv'
        by_cases hk : k = j
        · subst hk
          refine ⟨now, by simp [lastSet_append_set], ?_⟩
          simp [run_ttl]
        · rw [mapGet_mapSet_of_ne _ _ hk] at hv'
          obtain ⟨t, ht, hmem⟩ := ih k v' hv'
          have hjk : ¬ j = k := fun e => hk e.symm
          exact ⟨t, by simp [lastSet_append_set, hjk, ht], List.mem_append_left _ hmem⟩
      rcases Set_cases (c.run l) now j w with ⟨_, hm, hq⟩ | ⟨_, e, rest, hq, hm, hr⟩
      · rw [hm] at h
        rw [hq]
        exact hext v h
      · rw [hm] at h
        rw [hr]
        have hne : k ≠ e.key := by
          intro hke
          rw [hke, mapGet_mapDelete_self] at h
          cases h
        rw [mapGet_mapDelete_of_ne _ hne] at h
        obtain ⟨t, ht, hmem⟩ := hext v h
        refine ⟨t, ht, ?_⟩
        rw [hq] at hmem
        rcases List.mem_cons.1 hmem with heq | hrest
        · exact absurd (congrArg expiryEntry.key heq) hne
        · exact hrest
    | delete j =>
      simp only [Cache.step, Cache.Delete] at h ⊢
      obtain ⟨t, ht, hmem⟩ := ih k v (mapGet_mapDelete_some _ h)
      exact ⟨t, by rw [lastSet_append_delete]; exact ht, hmem⟩
    | sweep now =>
      simp only [Cache.step, Cache.garbageCollect] at h ⊢
      obtain ⟨t, ht, hmem⟩ := ih k v (gcScan_fst_some now _ _ k v h)
      refine ⟨t, by rw [lastSet_append_sweep]; exact ht, ?_⟩
      rcases gcScan_mem now _ (c.run l).entries _ hmem with hkeep | hgone
      · exact hkeep
      · simp only at hgone
        rw [hgone] at h
        cases h

end Reachable

/-! ## The queue ordering invariant -/

/-- C7: in a cache built by `New`, after any sequence of `Set`, `Delete` and
sweep operations whose `Set` clock readings are non-decreasing, the expiry
timestamps of the queue are in non-decreasing order from head to tail. -/
theorem expiries_sorted {K V : Type} [DecidableEq K] [comparable K] (name : String) (cfg : Option Config)
    (c : Cache K V) (hnew : New K V name cfg = Except.ok c) (ops : List (Op K V))
    (hmono : (setClocks ops).Pairwise (fun a b => a ≤ b)) :
    ((c.run ops).expiries.map expiryEntry.expiry).Pairwise (fun a b => a ≤ b) := by
  obtain ⟨conf, _, _, _, hc⟩ := New_ok hnew
  have h0 : c.expiries = [] := by rw [hc]
  rw [List.pairwise_map]
  exact run_expiries_pairwise c h0 ops hmono

/-- Witness of C7: two `Set` calls at 0 and 5, a `Delete` and a sweep at 12. -/
theorem expiries_sorted_witness :
    (setClocks [(Op.set 0 "a" "1" : Op String String), Op.set 5 "b" "2", Op.delete "b",
      Op.sweep 12]).Pairwise (fun a b => a ≤ b) ∧
    ((freshCache.run [Op.set 0 "a" "1", Op.set 5 "b" "2", Op.delete "b",
      Op.sweep 12]).expiries.map expiryEntry.expiry).Pairwise (fun a b => a ≤ b) :=
  ⟨by decide,
    expiries_sorted "c" (some { TTL := 10, GCInterval := 1, MaxSize := 0 }) freshCache rfl
      [Op.set 0 "a" "1", Op.set 5 "b" "2", Op.delete "b", Op.sweep 12] (by decide)⟩

/-! ## The sweep removes what has expired -/

/-- In a state reached from a cache built by `New` by `Set` calls with
non-decreasing clock readings, `Delete` calls and sweeps, after
`garbageCollect(now)` the lookup of a key whose most recent `Set` was at a time
`t` with `t + TTL` strictly before `now` fails. -/
theorem sweep_lookup_expired {K V : Type} [DecidableEq K] [comparable K] (name : String)
    (conf : Config) (c : Cache K V) (hnew : New K V name (some conf) = Except.ok c) (ops : List (Op K V))
    (hmono : (setClocks ops).Pairwise (fun a b => a ≤ b))
    (now : Int) (k : K) (t : Int) (hlast : lastSet ops k = some t)
    (hexp : t + conf.TTL < now) :
    mapGet ((c.run ops).garbageCollect now).entries k = none := by
  obtain ⟨conf', hcfg, _, _, hc⟩ := New_ok hnew
  cases hcfg
  have h0 : c.expiries = [] := by rw [hc]
  have he : c.entries = [] := by rw [hc]
  have httl : c.ttl = conf.TTL := by rw [hc]
  cases hget : mapGet ((c.run ops).garbageCollect now).entries k with
  | none => rfl
  | some v =>
    exfalso
    have hrun : c.run (ops ++ [Op.sweep now]) = (c.run ops).garbageCollect now := by
      rw [run_append]; rfl
    obtain ⟨t', ht', hmem⟩ := run_live_key_record c he (ops ++ [Op.sweep now]) k v
      (by rw [hrun]; exact hget)
    rw [lastSet_append_sweep, hlast] at ht'
    cases ht'
    rw [hrun] at hmem
    have hge := gcScan_snd_ge now (c.run ops).expiries (c.run ops).entries
      (run_expiries_pairwise c h0 ops hmono) _ hmem
    simp only [httl] at hge
    omega

/-- C5: with `float64` keys and TTL 10, after `Set(NaN, "v")` and
`Set(NaN, "w")` at clock 0 the sweep at 100 consumes both records, and its
`delete` of the key NaN removes nothing: the two entries, expired since 10,
stay in the store, and the queue holds no record that a later sweep could
remove them by. -/
theorem sweep_keeps_expired_NaN :
    ∃ c : Cache float64 String,
      New float64 String "c" (some { TTL := 10, GCInterval := 1, MaxSize := 0 }) = Except.ok c ∧
      (setClocks [(Op.set 0 float64.NaN "v" : Op float64 String),
        Op.set 0 float64.NaN "w"]).Pairwise (fun a b => a ≤ b) ∧
      lastSet [(Op.set 0 float64.NaN "v" : Op float64 String), Op.set 0 float64.NaN "w"]
        float64.NaN = some 0 ∧
      ((c.run [Op.set 0 float64.NaN "v", Op.set 0 float64.NaN "w"]).garbageCollect 100).entries
        = [(float64.NaN, "w"), (float64.NaN, "v")] ∧
      ((c.run [Op.set 0 float64.NaN "v", Op.set 0 float64.NaN "w"]).garbageCollect 100).expiries
        = [] :=
  ⟨_, rfl, by decide, by decide, by decide, by decide⟩

/-! ## Overwrite -/

section Overwrite

variable {K V : Type} [DecidableEq K] [comparable K]

theorem mapDelete_mapDelete_self (m : GoMap K V) (k : K) :
    mapDelete (mapDelete m k) k = mapDelete m k := by
  simp [mapDelete, List.filter_filter]

theorem mapDelete_mapSet_self (m : GoMap K V) (k : K) (v : V)
    (hk : comparable.selfEq k = true) :
    mapDelete (mapSet m k v) k = mapDelete m k := by
  rw [mapSet, mapDelete_cons, if_pos (goEq_self k hk), mapDelete_mapDelete_self]

theorem count_key_mapDelete (m : GoMap K V) (k : K) (hk : comparable.selfEq k = true) :
    ((mapDelete m k).map Prod.fst).count k = 0 := by
  rw [List.count_eq_zero]
  intro hmem
  obtain ⟨kv, hkv, hkk⟩ := List.mem_map.1 hmem
  have := (List.mem_filter.1 hkv).2
  rw [hkk, goEq_self k hk] at this
  cases this

/-- Without a size bound `Set` is the map write and the append. -/
theorem Set_unbounded (c : Cache K V) (h : c.maxSize ≤ 0) (now : Int) (k : K) (v : V) :
    c.Set now k v =
      { c with
        entries := mapSet c.entries k v
        expiries := c.expiries ++ [{ key := k, expiry := now + c.ttl }] } := by
  have hm : ¬ c.maxSize > 0 := by omega
  simp [Cache.Set, hm]

/-- C11, as amended: without a size bound, for a key `k` with `k == k`, after
`Set(k, v1)` and `Set(k, v2)` the call `Get(k)` returns `(v2, true)`, the
second `Set` leaves the number of entries as the first left it, `k` is bound
exactly once, and the queue has gained the two records of `k`, in order. -/
theorem Set_overwrite [Inhabited V] (c : Cache K V) (h : c.maxSize ≤ 0) (t1 t2 : Int) (k : K)
    (hk : comparable.selfEq k = true) (v1 v2 : V) :
    ((c.Set t1 k v1).Set t2 k v2).Get k = (v2, true) ∧
    mapLen ((c.Set t1 k v1).Set t2 k v2).entries = mapLen (c.Set t1 k v1).entries ∧
    (((c.Set t1 k v1).Set t2 k v2).entries.map Prod.fst).count k = 1 ∧
    ((c.Set t1 k v1).Set t2 k v2).expiries
      = c.expiries ++ [{ key := k, expiry := t1 + c.ttl }, { key := k, expiry := t2 + c.ttl }] := by
  have h1 := Set_unbounded c h t1 k v1
  have h2 := Set_unbounded (c.Set t1 k v1) (by rw [Set_maxSize]; exact h) t2 k v2
  have e2 : mapSet (mapSet c.entries k v1) k v2 = (k, v2) :: mapDelete c.entries k := by
    show (k, v2) :: mapDelete (mapSet c.entries k v1) k = _
    rw [mapDelete_mapSet_self _ _ _ hk]
  rw [h2, h1]
  refine ⟨?_, ?_, ?_, ?_⟩
  · simp [Cache.Get, mapGet_mapSet_self _ _ _ hk]
  · show mapLen (mapSet (mapSet c.entries k v1) k v2) = mapLen (mapSet c.entries k v1)
    rw [e2]
    rfl
  · show ((mapSet (mapSet c.entries k v1) k v2).map Prod.fst).count k = 1
    rw [e2, List.map_cons, List.count_cons_self, count_key_mapDelete _ _ hk]
  · simp

end Overwrite

/-- Witness of C11 on `staleCache`: `"b"` is overwritten twice. -/
theorem Set_overwrite_witness :
    staleCache.maxSize ≤ 0 ∧
    comparable.selfEq "b" = true ∧
    ((staleCache.Set 3 "b" "x").Set 4 "b" "y").Get "b" = ("y", true) ∧
    mapLen ((staleCache.Set 3 "b" "x").Set 4 "b" "y").entries
      = mapLen (staleCache.Set 3 "b" "x").entries :=
  ⟨by decide, rfl, (Set_overwrite staleCache (by decide) 3 4 "b" rfl "x" "y").1,
    (Set_overwrite staleCache (by decide) 3 4 "b" rfl "x" "y").2.1⟩

/-- C11 fails as stated: with `float64` keys and no size bound, after
`Set(NaN, "v1")` and `Set(NaN, "v2")` on a new cache `Get(NaN)` returns the
zero value and `false`, and the second `Set` takes the store from one entry to
two. -/
theorem Set_overwrite_NaN :
    ∃ c : Cache float64 String,
      New float64 String "c" (some { TTL := 10, GCInterval := 1, MaxSize := 0 }) = Except.ok c ∧
      c.maxSize ≤ 0 ∧
      ((c.Set 0 float64.NaN "v1").Set 1 float64.NaN "v2").Get float64.NaN = ("", false) ∧
      mapLen (c.Set 0 float64.NaN "v1").entries = 1 ∧
      mapLen ((c.Set 0 float64.NaN "v1").Set 1 float64.NaN "v2").entries = 2 :=
  ⟨_, rfl, by decide, by decide, by decide, by decide⟩

/-! ## Absence -/

theorem lastSet_none_of_no_set {K V : Type} [DecidableEq K] (ops : List (Op K V)) (k : K)
    (h : ∀ op ∈ ops, Op.isSetOn k op = false) : lastSet ops k = none := by
  induction ops using List.reverseRecOn with
  | nil => rfl
  | append_singleton l a ih =>
    have hl : lastSet l k = none := ih (fun op hop => h op (List.mem_append_left _ hop))
    have ha := h a (List.mem_append_right _ (List.mem_singleton_self a))
    cases a with
    | set now j v =>
      have hj : ¬ j = k := by simpa [Op.isSetOn] using ha
      rw [lastSet_append_set, if_neg hj, hl]
    | delete j => rw [lastSet_append_delete, hl]
    | sweep now => rw [lastSet_append_sweep, hl]

section Absence

variable {K V : Type} [DecidableEq K] [comparable K]

/-- C12: a cache returned by `New` has an empty store and an empty queue, and
after any sequence of `Set`, `Delete` and sweep operations with no `Set` on
`k`, `Get(k)` returns the zero value and `false`. -/
theorem Get_absent_without_Set [Inhabited V] (name : String) (cfg : Option Config)
    (c : Cache K V) (hnew : New K V name cfg = Except.ok c) :
    c.entries = [] ∧ c.expiries = [] ∧
    ∀ (k : K) (ops : List (Op K V)), (∀ op ∈ ops, Op.isSetOn k op = false) →
      (c.run ops).Get k = (default, false) := by
  obtain ⟨conf, _, _, _, hc⟩ := New_ok hnew
  have he : c.entries = [] := by rw [hc]
  have hq : c.expiries = [] := by rw [hc]
  refine ⟨he, hq, ?_⟩
  intro k ops hno
  cases hget : mapGet (c.run ops).entries k with
  | none => simp [Cache.Get, hget]
  | some v =>
    obtain ⟨t, ht, _⟩ := run_live_key_record c he ops k v hget
    rw [lastSet_none_of_no_set ops k hno] at ht
    cases ht

end Absence

/-- Witness of C12: `"z"` is never set in a run that sets, deletes and sweeps
other keys. -/
theorem Get_absent_without_Set_witness :
    (∀ op ∈ [(Op.set 0 "a" "1" : Op String String), Op.delete "z", Op.sweep 3, Op.set 4 "b" "2"],
      Op.isSetOn "z" op = false) ∧
    (freshCache.run [Op.set 0 "a" "1", Op.delete "z", Op.sweep 3, Op.set 4 "b" "2"]).Get "z"
      = ("", false) :=
  ⟨by decide,
    (Get_absent_without_Set "c" (some { TTL := 10, GCInterval := 1, MaxSize := 0 }) freshCache
      rfl).2.2 "z" [Op.set 0 "a" "1", Op.delete "z", Op.sweep 3, Op.set 4 "b" "2"] (by decide)⟩

/-! ## The error text of New -/

/-- C13: the error of `New` is "invalid cache config: " followed by "nil" for
a nil configuration, by "non-positive ttl" when `TTL <= 0` (whatever the GC
interval), and by "non-positive gc interval" when `TTL > 0` and
`GCInterval <= 0`; there is no other error. -/
theorem New_error_text (K V : Type) (name : String) :
    New K V name none = Except.error "invalid cache config: nil" ∧
    (∀ conf : Config, conf.TTL ≤ 0 →
      New K V name (some conf) = Except.error "invalid cache config: non-positive ttl") ∧
    (∀ conf : Config, 0 < conf.TTL → conf.GCInterval ≤ 0 →
      New K V name (some conf) = Except.error "invalid cache config: non-positive gc interval") ∧
    (∀ (cfg : Option Config) (msg : String), New K V name cfg = Except.error msg →
      msg = "invalid cache config: " ++ "nil" ∨
      msg = "invalid cache config: " ++ "non-positive ttl" ∨
      msg = "invalid cache config: " ++ "non-positive gc interval") := by
  refine ⟨rfl, ?_, ?_, ?_⟩
  · intro conf h
    have h1 : conf.TTL < 1 := by omega
    simp only [New, Config.validate, h1, if_true]
    rfl
  · intro conf h1 h2
    have h1' : ¬ conf.TTL < 1 := by omega
    have h2' : conf.GCInterval < 1 := by omega
    simp only [New, Config.validate, h1', h2', if_true, if_false]
    rfl
  · intro cfg msg h
    cases cfg with
    | none =>
      simp only [New, Config.validate] at h
      cases h
      exact Or.inl rfl
    | some conf =>
      by_cases h1 : conf.TTL < 1
      · simp only [New, Config.validate, h1, if_true] at h
        cases h
        exact Or.inr (Or.inl rfl)
      · by_cases h2 : conf.GCInterval < 1
        · simp only [New, Config.validate, h1, h2, if_true, if_false] at h
          cases h
          exact Or.inr (Or.inr rfl)
        · simp only [New, Config.validate, h1, h2, if_false] at h
          cases h

/-- Witness of C13: with TTL and GC interval both non-positive the ttl error
is reported; with only the GC interval non-positive, the gc interval error. -/
theorem New_error_text_witness :
    New String String "c" (some { TTL := 0, GCInterval := -1, MaxSize := 0 })
      = Except.error "invalid cache config: non-positive ttl" ∧
    New String String "c" (some { TTL := 1, GCInterval := 0, MaxSize := 0 })
      = Except.error "invalid cache config: non-positive gc interval" :=
  ⟨(New_error_text String String "c").2.1 { TTL := 0, GCInterval := -1, MaxSize := 0 }
      (by decide),
    (New_error_text String String "c").2.2.1 { TTL := 1, GCInterval := 0, MaxSize := 0 }
      (by decide) (by decide)⟩

/-! ## The sweep as a prefix scan -/

theorem expiredRun_cons_lt {K : Type} (now : Int) (e : expiryEntry K)
    (rest : List (expiryEntry K)) (h : e.expiry < now) :
    expiredRun now (e :: rest) = e :: expiredRun now rest := by
  simp [expiredRun, List.takeWhile_cons, h]

theorem expiredRun_cons_ge {K : Type} (now : Int) (e : expiryEntry K)
    (rest : List (expiryEntry K)) (h : ¬ e.expiry < now) :
    expiredRun now (e :: rest) = [] := by
  simp [expiredRun, List.takeWhile_cons, h]

theorem drop_expiredRun {K : Type} (now : Int) (q : List (expiryEntry K)) :
    q.drop (expiredRun now q).length = q.dropWhile (fun e => decide (e.expiry < now)) := by
  induction q with
  | nil => rfl
  | cons e rest ih =>
    by_cases h : e.expiry < now
    · rw [expiredRun_cons_lt now e rest h, List.length_cons, List.drop_succ_cons, ih]
      simp [List.dropWhile_cons, h]
    · rw [expiredRun_cons_ge now e rest h]
      simp [List.dropWhile_cons, h]

section PrefixScan

variable {K V : Type} [DecidableEq K] [comparable K]

/-- The slice left by the loop is the queue without its expired leading run. -/
theorem gcScan_snd (now : Int) (q : List (expiryEntry K)) (m : GoMap K V) :
    (gcScan now q m).2 = q.drop (expiredRun now q).length := by
  induction q generalizing m with
  | nil => rfl
  | cons e rest ih =>
    unfold gcScan
    split
    · rename_i h
      rw [expiredRun_cons_lt now e rest h, List.length_cons, List.drop_succ_cons]
      exact ih _
    · rename_i h
      rw [expiredRun_cons_ge now e rest h]
      rfl

/-- The store left by the loop is the store without the bindings whose key is
`==` to the key of a record of the expired leading run. -/
theorem gcScan_fst (now : Int) (q : List (expiryEntry K)) (m : GoMap K V) :
    (gcScan now q m).1 =
      m.filter (fun kv => !(expiredRun now q).any (fun e => goEq kv.1 e.key)) := by
  induction q generalizing m with
  | nil => simp [gcScan, expiredRun]
  | cons e rest ih =>
    unfold gcScan
    split
    · rename_i h
      rw [expiredRun_cons_lt now e rest h]
      simp only [ih, mapDelete, List.filter_filter]
      apply List.filter_congr
      intro kv _
      simp only [List.any_cons, Bool.not_or, Bool.and_comm]
    · rename_i h
      rw [expiredRun_cons_ge now e rest h]
      simp

/-- Filtering a store does not change the lookup of `j` when it keeps every
binding with a key `==` to `j`. -/
theorem mapGet_filter_of_kept (m : GoMap K V) (P : K × V → Bool) (j : K)
    (h : ∀ kv ∈ m, goEq kv.1 j = true → P kv = true) :
    mapGet (m.filter P) j = mapGet m j := by
  induction m with
  | nil => rfl
  | cons kv rest ih =>
    obtain ⟨a, b⟩ := kv
    have ih' := ih (fun kv hkv => h kv (List.mem_cons_of_mem _ hkv))
    by_cases hP : P (a, b) = true
    · rw [List.filter_cons_of_pos hP, mapGet_cons, mapGet_cons, ih']
    · rw [List.filter_cons_of_neg hP, mapGet_cons, ih']
      have hj : ¬ goEq a j = true := fun hg => hP (h (a, b) (List.mem_cons_self _ _) hg)
      rw [if_neg hj]

/-- Filtering a store makes the lookup of `j` fail when it keeps no binding
with a key `==` to `j`. -/
theorem mapGet_filter_of_dropped (m : GoMap K V) (P : K × V → Bool) (j : K)
    (h : ∀ kv ∈ m, P kv = true → goEq kv.1 j = false) :
    mapGet (m.filter P) j = none := by
  induction m with
  | nil => rfl
  | cons kv rest ih =>
    obtain ⟨a, b⟩ := kv
    have ih' := ih (fun kv hkv => h kv (List.mem_cons_of_mem _ hkv))
    by_cases hP : P (a, b) = true
    · have hj : ¬ goEq a j = true := by
        rw [h (a, b) (List.mem_cons_self _ _) hP]
        simp
      rw [List.filter_cons_of_pos hP, mapGet_cons, if_neg hj, ih']
    · rw [List.filter_cons_of_neg hP, ih']

/-- C15: `garbageCollect(now)` is the sweep of the specification: the queue
loses its longest leading run of records expiring strictly before `now` (every
record of the run expires before `now`, the first record left does not, so a
record expiring at `now` is kept together with all that follows it), the store
loses exactly the keys of the removed records, and every other key keeps its
value. -/
theorem garbageCollect_eq_sweepSpec (c : Cache K V) (now : Int) :
    c.garbageCollect now = sweepSpec c now ∧
    expiredRun now c.expiries ++ (c.garbageCollect now).expiries = c.expiries ∧
    (∀ e ∈ expiredRun now c.expiries, e.expiry < now) ∧
    (∀ e, (c.garbageCollect now).expiries.head? = some e → now ≤ e.expiry) ∧
    (∀ j ∈ (expiredRun now c.expiries).map expiryEntry.key,
      mapGet (c.garbageCollect now).entries j = none) ∧
    (∀ j, j ∉ (expiredRun now c.expiries).map expiryEntry.key →
      mapGet (c.garbageCollect now).entries j = mapGet c.entries j) := by
  have hq : (c.garbageCollect now).expiries
      = c.expiries.drop (expiredRun now c.expiries).length := gcScan_snd now _ _
  have hm : (c.garbageCollect now).entries
      = c.entries.filter
          (fun kv => !(expiredRun now c.expiries).any (fun e => goEq kv.1 e.key)) :=
    gcScan_fst now _ _
  have hdrop : c.expiries.drop (expiredRun now c.expiries).length
      = c.expiries.dropWhile (fun e => decide (e.expiry < now)) := drop_expiredRun now _
  refine ⟨?_, ?_, ?_, ?_, ?_, ?_⟩
  · simp only [Cache.garbageCollect, sweepSpec, gcScan_snd, gcScan_fst]
  · rw [hq, hdrop]
    exact List.takeWhile_append_dropWhile _ _
  · intro e he
    simpa using List.mem_takeWhile_imp he
  · intro e he
    rw [hq, hdrop] at he
    have := List.head?_dropWhile_not (fun e => decide (e.expiry < now)) c.expiries
    rw [he] at this
    simp at this
    exact this
  · intro j hj
    rw [hm]
    apply mapGet_filter_of_dropped
    intro kv _ hP
    obtain ⟨e, he, hej⟩ := List.mem_map.1 hj
    have hP' : (expiredRun now c.expiries).any (fun e => goEq kv.1 e.key) = false := by
      simpa using hP
    rw [List.any_eq_false] at hP'
    have := hP' e he
    rw [hej] at this
    simpa using this
  · intro j hj
    rw [hm]
    apply mapGet_filter_of_kept
    intro kv _ hg
    have hkj : kv.1 = j := ((goEq_iff kv.1 j).1 hg).2
    have hnone : (expiredRun now c.expiries).any (fun e => goEq kv.1 e.key) = false := by
      rw [List.any_eq_false]
      intro e he
      have hne : kv.1 ≠ e.key := by
        rw [hkj]
        exact fun e' => hj (List.mem_map.2 ⟨e, he, e'.symm⟩)
      rw [goEq_of_ne hne]
      simp
    rw [hnone]
    rfl

end PrefixScan

/-- Witness of C15 on `unsortedCache` swept at 12: the record of `"b"` expiring
at 12 stops the scan, and `"c"`, whose record expiring at 5 comes later, keeps
its value. -/
theorem garbageCollect_eq_sweepSpec_witness :
    (unsortedCache.garbageCollect 12).expiries.head? = some { key := "b", expiry := 12 } ∧
    "c" ∉ (expiredRun 12 unsortedCache.expiries).map expiryEntry.key ∧
    mapGet (unsortedCache.garbageCollect 12).entries "c" = mapGet unsortedCache.entries "c" :=
  ⟨by decide, by decide, (garbageCollect_eq_sweepSpec unsortedCache 12).2.2.2.2.2 "c" (by decide)⟩

/-! ## Sweeps absorb earlier sweeps -/

section Absorb

variable {K V : Type} [DecidableEq K] [comparable K]

theorem gcScan_absorb (now1 now2 : Int) (h : now1 ≤ now2) (q : List (expiryEntry K))
    (m : GoMap K V) :
    gcScan now2 (gcScan now1 q m).2 (gcScan now1 q m).1 = gcScan now2 q m := by
  induction q generalizing m with
  | nil => rfl
  | cons e rest ih =>
    by_cases h1 : e.expiry < now1
    · have h2 : e.expiry < now2 := by omega
      have e1 : gcScan now1 (e :: rest) m = gcScan now1 rest (mapDelete m e.key) := by
        simp [gcScan, h1]
      have e2 : gcScan now2 (e :: rest) m = gcScan now2 rest (mapDelete m e.key) := by
        simp [gcScan, h2]
      rw [e1, e2]
      exact ih _
    · have e1 : gcScan now1 (e :: rest) m = (m, e :: rest) := by
        simp [gcScan, h1]
      rw [e1]

/-- C19: for `now1 <= now2`, `garbageCollect(now1)` followed by
`garbageCollect(now2)` leaves the same state as `garbageCollect(now2)` alone;
in particular a sweep run twice at the same time equals the sweep run once. -/
theorem garbageCollect_absorb (c : Cache K V) (now1 now2 : Int) (h : now1 ≤ now2) :
    (c.garbageCollect now1).garbageCollect now2 = c.garbageCollect now2 ∧
    (c.garbageCollect now2).garbageCollect now2 = c.garbageCollect now2 := by
  constructor
  · simp only [Cache.garbageCollect]
    rw [gcScan_absorb now1 now2 h]
  · simp only [Cache.garbageCollect]
    rw [gcScan_absorb now2 now2 (le_refl _)]

end Absorb

/-- Witness of C19 on `unsortedCache`: sweeps at 11 and then at 13. -/
theorem garbageCollect_absorb_witness :
    (11 : Int) ≤ 13 ∧
    (unsortedCache.garbageCollect 11).garbageCollect 13 = unsortedCache.garbageCollect 13 :=
  ⟨by decide, (garbageCollect_absorb unsortedCache 11 13 (by decide)).1⟩

/-! ## Stores are maps -/

section Keys

variable {K V : Type} [DecidableEq K] [comparable K]

theorem mapDelete_pairwise (m : GoMap K V) (k : K)
    (h : m.Pairwise (fun a b => goEq a.1 b.1 = false)) :
    (mapDelete m k).Pairwise (fun a b => goEq a.1 b.1 = false) :=
  List.Pairwise.sublist (List.filter_sublist m) h

theorem goEq_false_of_mem_mapDelete (m : GoMap K V) (k : K) (kv : K × V)
    (h : kv ∈ mapDelete m k) : goEq kv.1 k = false := by
  have := (List.mem_filter.1 h).2
  simpa using this

theorem mapSet_pairwise (m : GoMap K V) (k : K) (v : V)
    (h : m.Pairwise (fun a b => goEq a.1 b.1 = false)) :
    (mapSet m k v).Pairwise (fun a b => goEq a.1 b.1 = false) := by
  rw [mapSet, List.pairwise_cons]
  refine ⟨?_, mapDelete_pairwise m k h⟩
  intro kv hkv
  show goEq k kv.1 = false
  rw [goEq_symm]
  exact goEq_false_of_mem_mapDelete m k kv hkv

theorem mapDelete_of_no_goEq (m : GoMap K V) (k : K) (h : ∀ kv ∈ m, goEq kv.1 k = false) :
    mapDelete m k = m := by
  rw [mapDelete, List.filter_eq_self]
  intro kv hkv
  rw [h kv hkv]
  rfl

theorem mapDelete_of_not_mem_keys (m : GoMap K V) (k : K) (h : k ∉ m.map Prod.fst) :
    mapDelete m k = m := by
  apply mapDelete_of_no_goEq
  intro kv hkv
  exact goEq_of_ne (fun e => h (e ▸ List.mem_map_of_mem Prod.fst hkv))

/-- On a map, `delete` removes at most one binding. -/
theorem length_le_mapDelete_succ (m : GoMap K V) (k : K)
    (h : m.Pairwise (fun a b => goEq a.1 b.1 = false)) :
    m.length ≤ (mapDelete m k).length + 1 := by
  induction m with
  | nil => simp
  | cons kv rest ih =>
    obtain ⟨a, b⟩ := kv
    rw [List.pairwise_cons] at h
    rw [mapDelete_cons]
    by_cases hk : goEq a k = true
    · have hak : a = k := ((goEq_iff a k).1 hk).2
      have hrest : mapDelete rest k = rest := by
        apply mapDelete_of_no_goEq
        intro kv hkv
        have := h.1 kv hkv
        rw [← hak, goEq_symm]
        exact this
      rw [if_pos hk, hrest]
      simp
    · rw [if_neg hk]
      have := ih h.2
      simp only [List.length_cons]
      omega

theorem mapDelete_length_le (m : GoMap K V) (k : K) : (mapDelete m k).length ≤ m.length :=
  List.length_filter_le _ m

theorem mapGet_of_mem_keys (m : GoMap K V) (k : K) (hk : comparable.selfEq k = true)
    (h : k ∈ m.map Prod.fst) : ∃ v, mapGet m k = some v := by
  induction m with
  | nil => cases h
  | cons kv rest ih =>
    obtain ⟨a, b⟩ := kv
    rw [mapGet_cons]
    by_cases hak : a = k
    · have hg : goEq a k = true := by rw [hak]; exact goEq_self k hk
      exact ⟨b, by rw [if_pos hg]⟩
    · have hg : ¬ goEq a k = true := by
        rw [goEq_of_ne hak]
        simp
      rw [if_neg hg]
      rw [List.map_cons, List.mem_cons] at h
      rcases h with h | h
      · exact absurd h.symm hak
      · exact ih h

theorem Set_entries_pairwise (c : Cache K V) (now : Int) (k : K) (v : V)
    (h : c.entries.Pairwise (fun a b => goEq a.1 b.1 = false)) :
    (c.Set now k v).entries.Pairwise (fun a b => goEq a.1 b.1 = false) := by
  rcases Set_cases c now k v with ⟨_, hm, _⟩ | ⟨_, e, rest, _, hm, _⟩
  · rw [hm]
    exact mapSet_pairwise _ k v h
  · rw [hm]
    exact mapDelete_pairwise _ _ (mapSet_pairwise _ k v h)

theorem garbageCollect_entries_sublist (c : Cache K V) (now : Int) :
    List.Sublist (c.garbageCollect now).entries c.entries := by
  have hm : (c.garbageCollect now).entries
      = c.entries.filter
          (fun kv => !(expiredRun now c.expiries).any (fun e => goEq kv.1 e.key)) :=
    gcScan_fst now _ _
  rw [hm]
  exact List.filter_sublist c.entries

/-- The store of a state reached from an empty store is a map: no two bindings
have keys that are `==`. -/
theorem run_entries_pairwise (c : Cache K V) (he : c.entries = []) (ops : List (Op K V)) :
    (c.run ops).entries.Pairwise (fun a b => goEq a.1 b.1 = false) := by
  induction ops using List.reverseRecOn with
  | nil => simp [Cache.run, he]
  | append_singleton l a ih =>
    rw [run_append]
    cases a with
    | set now k v => exact Set_entries_pairwise _ now k v ih
    | delete k => exact mapDelete_pairwise _ k ih
    | sweep now => exact List.Pairwise.sublist (garbageCollect_entries_sublist _ now) ih

/-- Every binding in the store after `Set` was there before or is the new one. -/
theorem Set_entries_mem (c : Cache K V) (now : Int) (k : K) (v : V) (kv : K × V)
    (h : kv ∈ (c.Set now k v).entries) : kv = (k, v) ∨ kv ∈ c.entries := by
  have hset : kv ∈ mapSet c.entries k v := by
    rcases Set_cases c now k v with ⟨_, hm, _⟩ | ⟨_, e, rest, _, hm, _⟩
    · rwa [hm] at h
    · rw [hm] at h
      exact (List.filter_sublist _).subset h
  rw [mapSet, List.mem_cons] at hset
  rcases hset with h1 | h2
  · exact Or.inl h1
  · exact Or.inr ((List.filter_sublist _).subset h2)

/-- In a run that sets only keys that are `==` to themselves, every key in the
store is `==` to itself. -/
theorem run_entries_selfEq (c : Cache K V) (he : c.entries = []) (ops : List (Op K V))
    (hops : ∀ op ∈ ops, Op.selfEqKey op = true) :
    ∀ kv ∈ (c.run ops).entries, comparable.selfEq kv.1 = true := by
  induction ops using List.reverseRecOn with
  | nil =>
    intro kv hkv
    simp [Cache.run, he] at hkv
  | append_singleton l a ih =>
    have ihl := ih (fun op hop => hops op (List.mem_append_left _ hop))
    have ha := hops a (List.mem_append_right _ (List.mem_singleton_self a))
    intro kv hkv
    rw [run_append] at hkv
    cases a with
    | set now k v =>
      rcases Set_entries_mem _ now k v kv hkv with h1 | h2
      · rw [h1]
        exact ha
      · exact ihl kv h2
    | delete k => exact ihl kv ((List.filter_sublist _).subset hkv)
    | sweep now => exact ihl kv ((garbageCollect_entries_sublist _ now).subset hkv)

end Keys

/-! ## The size guard, step by step -/

section SizeGuard

variable {K V : Type} [DecidableEq K] [comparable K]

/-- C16: with `MaxSize > 0`, `Set(k, v)` at `now` writes `k -> v` and appends
`(k, now + TTL)`; when the store then has more than `MaxSize` entries it
deletes the key of the head record of the extended queue and drops that one
record, so the queue is as long as before the `Set` and the store lost at most
one entry; otherwise the store is the written one and the queue the extended
one.  The store is a map: no two of its bindings have keys that are `==`. -/
theorem Set_size_guard (c : Cache K V) (hmax : c.maxSize > 0)
    (hwf : c.entries.Pairwise (fun a b => goEq a.1 b.1 = false)) (now : Int) (k : K) (v : V) :
    (mapLen (mapSet c.entries k v) > c.maxSize →
      ∃ e rest,
        c.expiries ++ [{ key := k, expiry := now + c.ttl }] = e :: rest ∧
        (c.Set now k v).entries = mapDelete (mapSet c.entries k v) e.key ∧
        (c.Set now k v).expiries = rest ∧
        (c.Set now k v).expiries.length = c.expiries.length ∧
        mapLen (mapSet c.entries k v) - 1 ≤ mapLen (c.Set now k v).entries ∧
        mapLen (c.Set now k v).entries ≤ mapLen (mapSet c.entries k v)) ∧
    (¬ mapLen (mapSet c.entries k v) > c.maxSize →
      (c.Set now k v).entries = mapSet c.entries k v ∧
      (c.Set now k v).expiries = c.expiries ++ [{ key := k, expiry := now + c.ttl }]) := by
  constructor
  · intro hgt
    rcases Set_cases c now k v with ⟨hno, _, _⟩ | ⟨_, e, rest, hq, hm, hr⟩
    · exact absurd ⟨hmax, hgt⟩ hno
    · refine ⟨e, rest, hq, hm, hr, ?_, ?_, ?_⟩
      · have hlen := congrArg List.length hq
        rw [hr]
        simp only [List.length_append, List.length_cons, List.length_nil] at hlen
        omega
      · rw [hm]
        have := length_le_mapDelete_succ (mapSet c.entries k v) e.key
          (mapSet_pairwise _ k v hwf)
        simp only [mapLen]
        omega
      · rw [hm]
        have := mapDelete_length_le (mapSet c.entries k v) e.key
        simp only [mapLen]
        omega
  · intro hle
    rcases Set_cases c now k v with ⟨_, hm, hq⟩ | ⟨hyes, _⟩
    · exact ⟨hm, hq⟩
    · exact absurd hyes.2 hle

end SizeGuard

/-- Witness of C16 on `boundedCache` after `Set("a")` and `Set("b")`: the
third `Set` exceeds `MaxSize = 2`, the queue keeps its length 2. -/
theorem Set_size_guard_witness :
    (boundedCache.run [Op.set 0 "a" "1", Op.set 1 "b" "2"]).maxSize > 0 ∧
    (boundedCache.run [Op.set 0 "a" "1", Op.set 1 "b" "2"]).entries.Pairwise
      (fun a b => goEq a.1 b.1 = false) ∧
    mapLen (mapSet (boundedCache.run [Op.set 0 "a" "1", Op.set 1 "b" "2"]).entries "c" "3")
      > (boundedCache.run [Op.set 0 "a" "1", Op.set 1 "b" "2"]).maxSize ∧
    ∃ e rest,
      (boundedCache.run [Op.set 0 "a" "1", Op.set 1 "b" "2"]).expiries
          ++ [{ key := "c", expiry := 2 + (boundedCache.run [Op.set 0 "a" "1",
            Op.set 1 "b" "2"]).ttl }] = e :: rest ∧
      ((boundedCache.run [Op.set 0 "a" "1", Op.set 1 "b" "2"]).Set 2 "c" "3").entries
        = mapDelete
            (mapSet (boundedCache.run [Op.set 0 "a" "1", Op.set 1 "b" "2"]).entries "c" "3")
            e.key ∧
      ((boundedCache.run [Op.set 0 "a" "1", Op.set 1 "b" "2"]).Set 2 "c" "3").expiries
        = rest :=
  ⟨by decide, by decide, by decide,
    match (Set_size_guard (boundedCache.run [Op.set 0 "a" "1", Op.set 1 "b" "2"])
      (by decide) (by decide) 2 "c" "3").1 (by decide) with
    | ⟨e, rest, hq, hm, hr, _⟩ => ⟨e, rest, hq, hm, hr⟩⟩

/-! ## Store entries and queue records -/

section StoreQueue

variable {K V : Type} [DecidableEq K] [comparable K]

/-- C18, as amended: in every state reached from a cache built by `New` by
`Set`, `Delete` and sweep, whatever `MaxSize`, each key `k` in the store with
`k == k` has the record appended by its most recent `Set` in the queue; the
store has no more entries with such keys than the queue has records, and in a
run that sets only such keys it has no more entries than the queue has
records. -/
theorem store_within_queue (name : String) (cfg : Option Config) (c : Cache K V)
    (hnew : New K V name cfg = Except.ok c) (ops : List (Op K V)) :
    (∀ (k : K) (v : V), (k, v) ∈ (c.run ops).entries → comparable.selfEq k = true →
      ∃ t, lastSet ops k = some t ∧
        ({ key := k, expiry := t + c.ttl } : expiryEntry K) ∈ (c.run ops).expiries) ∧
    ((((c.run ops).entries.filter (fun kv => comparable.selfEq kv.1)).length : Int)
      ≤ ((c.run ops).expiries.length : Int)) ∧
    ((∀ op ∈ ops, Op.selfEqKey op = true) →
      mapLen (c.run ops).entries ≤ ((c.run ops).expiries.length : Int)) := by
  obtain ⟨conf, _, _, _, hc⟩ := New_ok hnew
  have he : c.entries = [] := by rw [hc]
  have hrec : ∀ (k : K) (v : V), (k, v) ∈ (c.run ops).entries → comparable.selfEq k = true →
      ∃ t, lastSet ops k = some t ∧
        ({ key := k, expiry := t + c.ttl } : expiryEntry K) ∈ (c.run ops).expiries := by
    intro k v hmem hk
    obtain ⟨v', hv'⟩ := mapGet_of_mem_keys (c.run ops).entries k hk
      (List.mem_map.2 ⟨(k, v), hmem, rfl⟩)
    exact run_live_key_record c he ops k v' hv'
  have hcount : (((c.run ops).entries.filter (fun kv => comparable.selfEq kv.1)).length : Int)
      ≤ ((c.run ops).expiries.length : Int) := by
    have hpw := List.Pairwise.sublist
      (List.filter_sublist (p := fun kv => comparable.selfEq kv.1) (c.run ops).entries)
      (run_entries_pairwise c he ops)
    have hnd : (((c.run ops).entries.filter (fun kv => comparable.selfEq kv.1)).map
        Prod.fst).Nodup := by
      rw [List.Nodup, List.pairwise_map]
      refine List.Pairwise.imp_of_mem ?_ hpw
      intro a b ha _ hab heq
      have hsa : comparable.selfEq a.1 = true := (List.mem_filter.1 ha).2
      rw [(goEq_iff a.1 b.1).2 ⟨hsa, heq⟩] at hab
      cases hab
    have hsub : ((c.run ops).entries.filter (fun kv => comparable.selfEq kv.1)).map Prod.fst
        ⊆ (c.run ops).expiries.map expiryEntry.key := by
      intro k hk
      obtain ⟨kv, hkv, hkk⟩ := List.mem_map.1 hk
      obtain ⟨hin, hs⟩ := List.mem_filter.1 hkv
      obtain ⟨t, _, hmem⟩ := hrec kv.1 kv.2 hin hs
      exact List.mem_map.2 ⟨_, hmem, hkk⟩
    have hlen := (hnd.subperm hsub).length_le
    simp only [List.length_map] at hlen
    exact_mod_cast hlen
  refine ⟨hrec, hcount, ?_⟩
  intro hops
  have hall := run_entries_selfEq c he ops hops
  have hfil : (c.run ops).entries.filter (fun kv => comparable.selfEq kv.1)
      = (c.run ops).entries := List.filter_eq_self.2 hall
  rw [hfil] at hcount
  exact hcount

end StoreQueue

/-- Witness of C18, as amended, on the run `Set("a")`, `Set("a")`,
`Delete("a")`, `Set("b")` from `freshCache`. -/
theorem store_within_queue_witness :
    (∀ op ∈ [(Op.set 0 "a" "1" : Op String String), Op.set 1 "a" "2", Op.delete "a",
      Op.set 2 "b" "3"], Op.selfEqKey op = true) ∧
    mapLen (freshCache.run [Op.set 0 "a" "1", Op.set 1 "a" "2", Op.delete "a",
      Op.set 2 "b" "3"]).entries
    ≤ ((freshCache.run [Op.set 0 "a" "1", Op.set 1 "a" "2", Op.delete "a",
      Op.set 2 "b" "3"]).expiries.length : Int) :=
  ⟨by decide,
    (store_within_queue "c" (some { TTL := 10, GCInterval := 1, MaxSize := 0 }) freshCache rfl
      [Op.set 0 "a" "1", Op.set 1 "a" "2", Op.delete "a", Op.set 2 "b" "3"]).2.2 (by decide)⟩

/-- C18 fails as stated: with `float64` keys, after `Set(NaN)` twice and a
sweep at 100 on a new cache with TTL 10 the store holds two bindings of NaN and
the queue is empty, so NaN is in the store without a record and the store has
more entries than the queue has records. -/
theorem store_exceeds_queue_NaN :
    ∃ c : Cache float64 String,
      New float64 String "c" (some { TTL := 10, GCInterval := 1, MaxSize := 0 }) = Except.ok c ∧
      (c.run [Op.set 0 float64.NaN "v", Op.set 0 float64.NaN "w", Op.sweep 100]).entries
        = [(float64.NaN, "w"), (float64.NaN, "v")] ∧
      (c.run [Op.set 0 float64.NaN "v", Op.set 0 float64.NaN "w", Op.sweep 100]).expiries
        = [] ∧
      ¬ (mapLen (c.run [Op.set 0 float64.NaN "v", Op.set 0 float64.NaN "w",
          Op.sweep 100]).entries
        ≤ ((c.run [Op.set 0 float64.NaN "v", Op.set 0 float64.NaN "w",
          Op.sweep 100]).expiries.length : Int)) :=
  ⟨_, rfl, by decide, by decide, by decide⟩

/-! ## First in, first out for distinct keys -/

theorem lastCalls_length {α : Type} (n : Nat) (l : List α) :
    (lastCalls n l).length = min l.length n := by
  simp only [lastCalls, List.length_drop]
  omega

theorem lastCalls_append {α : Type} (n : Nat) (hn : 0 < n) (l : List α) (a : α) :
    lastCalls n (l ++ [a])
      = (if (lastCalls n l).length < n then lastCalls n l else (lastCalls n l).tail) ++ [a] := by
  have hlen := lastCalls_length n l
  by_cases h : l.length < n
  · have h1 : (lastCalls n l).length < n := by omega
    rw [if_pos h1]
    have e1 : l.length - n = 0 := by omega
    have e2 : (l ++ [a]).length - n = 0 := by
      simp only [List.length_append, List.length_cons, List.length_nil]
      omega
    simp only [lastCalls, e1, e2, List.drop_zero]
  · have h1 : ¬ (lastCalls n l).length < n := by omega
    rw [if_neg h1]
    have e2 : (l ++ [a]).length - n = (l.length - n) + 1 := by
      simp only [List.length_append, List.length_cons, List.length_nil]
      omega
    simp only [lastCalls, e2, List.tail_drop]
    rw [List.drop_append_of_le_length (by omega)]

theorem setOps_append {K V : Type} (l : List (SetCall K V)) (s : SetCall K V) :
    setOps (l ++ [s]) = setOps l ++ [Op.set s.now s.key s.value] := by
  simp [setOps]

theorem keys_reverse_bindings {K V : Type} (w : List (SetCall K V)) :
    ((w.map SetCall.binding).reverse).map Prod.fst = (w.map SetCall.key).reverse := by
  rw [List.map_reverse, List.map_map]
  rfl

section Fifo

variable {K V : Type} [DecidableEq K] [comparable K]

/-- One `Set` with a new key on a store and a queue that hold the same window
of calls: the window takes the call in, and loses its first call when it was
full. -/
theorem Set_window (c : Cache K V) (n : Nat) (hn : 0 < n) (hmax : c.maxSize = (n : Int))
    (w : List (SetCall K V)) (s : SetCall K V)
    (hdist : ((w ++ [s]).map SetCall.key).Nodup)
    (hself : ∀ x ∈ w, comparable.selfEq x.key = true) (hlen : w.length ≤ n)
    (hE : c.entries = (w.map SetCall.binding).reverse)
    (hQ : c.expiries = w.map (SetCall.record c.ttl)) :
    (c.Set s.now s.key s.value).entries
      = (((if w.length < n then w else w.tail) ++ [s]).map SetCall.binding).reverse ∧
    (c.Set s.now s.key s.value).expiries
      = ((if w.length < n then w else w.tail) ++ [s]).map (SetCall.record c.ttl) := by
  rw [List.map_append, List.nodup_append] at hdist
  obtain ⟨hwnd, _, hdisj⟩ := hdist
  have hk : s.key ∉ w.map SetCall.key := fun hmem =>
    hdisj hmem (by simp)
  have hset : mapSet c.entries s.key s.value = s.binding :: (w.map SetCall.binding).reverse := by
    rw [mapSet, mapDelete_of_not_mem_keys, hE]
    · rfl
    · rw [hE, keys_reverse_bindings]
      simpa using hk
  have hsize : mapLen (mapSet c.entries s.key s.value) = (w.length : Int) + 1 := by
    rw [hset]
    simp [mapLen]
  by_cases hlt : w.length < n
  · rw [if_pos hlt]
    rcases Set_cases c s.now s.key s.value with ⟨_, hm, hq⟩ | ⟨hyes, _⟩
    · rw [hm, hq, hset, hQ]
      constructor
      · simp
      · simp [SetCall.record]
    · exfalso
      have := hyes.2
      rw [hsize, hmax] at this
      omega
  · rw [if_neg hlt]
    have hfull : w.length = n := by omega
    rcases Set_cases c s.now s.key s.value with ⟨hno, _, _⟩ | ⟨_, e, rest, hq, hm, hr⟩
    · exfalso
      apply hno
      rw [hsize, hmax]
      constructor <;> omega
    · cases w with
      | nil => simp at hfull; omega
      | cons h t =>
        rw [hQ, List.map_cons, List.cons_append] at hq
        obtain ⟨he, hrest⟩ := List.cons.inj hq
        rw [List.map_cons, List.nodup_cons] at hwnd
        have hsh : ¬ s.key = h.key := fun e => hk (by simp [e])
        have hth : h.key ∉ ((t.map SetCall.binding).reverse).map Prod.fst := by
          rw [keys_reverse_bindings]
          simpa using hwnd.1
        have hdel : mapDelete (s.binding :: ((h :: t).map SetCall.binding).reverse) h.key
            = s.binding :: (t.map SetCall.binding).reverse := by
          have hb : s.binding = (s.key, s.value) := rfl
          have hgsh : ¬ goEq s.key h.key = true := by
            rw [goEq_of_ne hsh]
            simp
          have hhh : goEq h.key h.key = true :=
            goEq_self h.key (hself h (List.mem_cons_self _ _))
          rw [hb, mapDelete_cons, if_neg hgsh]
          congr 1
          rw [List.map_cons, List.reverse_cons]
          have := mapDelete_of_not_mem_keys _ h.key hth
          simp only [mapDelete] at this ⊢
          rw [List.filter_append, this]
          simp [SetCall.binding, hhh]
        constructor
        · rw [hm, hset, ← he]
          show mapDelete _ h.key = _
          rw [hdel]
          simp
        · rw [hr, ← hrest]
          simp [SetCall.record]

/-- After a sequence of `Set` calls with distinct keys, each `==` to itself, on
an empty cache with `MaxSize = n > 0`, the store and the queue hold the last
`n` calls. -/
theorem run_setOps_window (c : Cache K V) (n : Nat) (hn : 0 < n) (hmax : c.maxSize = (n : Int))
    (he : c.entries = []) (hq : c.expiries = []) (calls : List (SetCall K V))
    (hdist : (calls.map SetCall.key).Nodup)
    (hself : ∀ s ∈ calls, comparable.selfEq s.key = true) :
    (c.run (setOps calls)).entries = ((lastCalls n calls).map SetCall.binding).reverse ∧
    (c.run (setOps calls)).expiries = (lastCalls n calls).map (SetCall.record c.ttl) := by
  induction calls using List.reverseRecOn with
  | nil => simp [setOps, Cache.run, lastCalls, he, hq]
  | append_singleton l s ih =>
    have hl : (l.map SetCall.key).Nodup := by
      rw [List.map_append] at hdist
      exact (List.nodup_append.1 hdist).1
    obtain ⟨ihE, ihQ⟩ := ih hl (fun x hx => hself x (List.mem_append_left _ hx))
    have hws : ∀ x ∈ lastCalls n l, comparable.selfEq x.key = true := fun x hx =>
      hself x (List.mem_append_left _ ((List.drop_sublist _ l).subset hx))
    have hsub : List.Sublist (lastCalls n l ++ [s]) (l ++ [s]) :=
      List.Sublist.append (List.drop_sublist _ l) (List.Sublist.refl _)
    have hwd : (((lastCalls n l) ++ [s]).map SetCall.key).Nodup :=
      List.Nodup.sublist (hsub.map SetCall.key) hdist
    have hwl : (lastCalls n l).length ≤ n := by
      rw [lastCalls_length]
      omega
    have hstep := Set_window (c.run (setOps l)) n hn (by rw [run_maxSize]; exact hmax)
      (lastCalls n l) s hwd hws hwl ihE (by rw [run_ttl]; exact ihQ)
    rw [setOps_append, run_append, lastCalls_append n hn]
    simp only [Cache.step]
    rw [run_ttl] at hstep
    by_cases hlt : (lastCalls n l).length < n
    · simp only [hlt, if_true] at hstep ⊢
      exact hstep
    · simp only [hlt, if_false] at hstep ⊢
      exact hstep

theorem mapGet_of_mem (m : GoMap K V) (k : K) (v : V) (hk : comparable.selfEq k = true)
    (hnd : (m.map Prod.fst).Nodup) (h : (k, v) ∈ m) : mapGet m k = some v := by
  induction m with
  | nil => cases h
  | cons kv rest ih =>
    obtain ⟨a, b⟩ := kv
    rw [List.map_cons, List.nodup_cons] at hnd
    rw [mapGet_cons]
    rcases List.mem_cons.1 h with heq | hrest
    · cases heq
      rw [if_pos (goEq_self k hk)]
    · have hak : ¬ a = k := by
        intro e
        apply hnd.1
        rw [e]
        exact List.mem_map.2 ⟨(k, v), hrest, rfl⟩
      have hg : ¬ goEq a k = true := by
        rw [goEq_of_ne hak]
        simp
      rw [if_neg hg]
      exact ih hnd.2 hrest

theorem mapGet_of_not_mem_keys (m : GoMap K V) (k : K) (h : k ∉ m.map Prod.fst) :
    mapGet m k = none := by
  cases hg : mapGet m k with
  | none => rfl
  | some v =>
    exfalso
    have := mapDelete_of_not_mem_keys m k h
    have hnone := mapGet_mapDelete_self m k
    rw [this, hg] at hnone
    cases hnone

/-- C17, as amended: on a cache built by `New` with `MaxSize = n > 0`, after
`m` calls of `Set` with pairwise distinct keys, each `==` to itself, and
nothing else, the store holds exactly the last `min(m, n)` keys, each with its
value, every earlier key is absent, and the queue holds the records of the
stored keys, one each, in the order of the calls; queue length and store size
are both `min(m, n)`. -/
theorem Set_distinct_fifo [Inhabited V] (name : String) (conf : Config) (c : Cache K V)
    (hnew : New K V name (some conf) = Except.ok c) (hmax : conf.MaxSize > 0)
    (calls : List (SetCall K V)) (hdist : (calls.map SetCall.key).Nodup)
    (hself : ∀ s ∈ calls, comparable.selfEq s.key = true) :
    (lastCalls conf.MaxSize.toNat calls).length = min calls.length conf.MaxSize.toNat ∧
    (∀ s ∈ lastCalls conf.MaxSize.toNat calls,
      (c.run (setOps calls)).Get s.key = (s.value, true)) ∧
    (∀ j, j ∉ (lastCalls conf.MaxSize.toNat calls).map SetCall.key →
      (c.run (setOps calls)).Get j = (default, false)) ∧
    (∀ s ∈ calls.take (calls.length - conf.MaxSize.toNat),
      (c.run (setOps calls)).Get s.key = (default, false)) ∧
    (c.run (setOps calls)).expiries
      = (lastCalls conf.MaxSize.toNat calls).map (SetCall.record conf.TTL) ∧
    mapLen (c.run (setOps calls)).entries = ((c.run (setOps calls)).expiries.length : Int) ∧
    mapLen (c.run (setOps calls)).entries = ((min calls.length conf.MaxSize.toNat : Nat) : Int) := by
  obtain ⟨conf', hcfg, _, _, hc⟩ := New_ok hnew
  cases hcfg
  have he : c.entries = [] := by rw [hc]
  have hq : c.expiries = [] := by rw [hc]
  have httl : c.ttl = conf.TTL := by rw [hc]
  have hms : c.maxSize = ((conf.MaxSize.toNat : Nat) : Int) := by
    rw [hc]
    simp only [Int.toNat_of_nonneg (le_of_lt hmax)]
  have hn : 0 < conf.MaxSize.toNat := by omega
  obtain ⟨hE, hQ⟩ := run_setOps_window c conf.MaxSize.toNat hn hms he hq calls hdist hself
  rw [httl] at hQ
  have hlen := lastCalls_length conf.MaxSize.toNat calls
  have hwnd : ((lastCalls conf.MaxSize.toNat calls).map SetCall.key).Nodup :=
    List.Nodup.sublist ((List.drop_sublist _ calls).map SetCall.key) hdist
  have hkeys : (c.run (setOps calls)).entries.map Prod.fst
      = ((lastCalls conf.MaxSize.toNat calls).map SetCall.key).reverse := by
    rw [hE, keys_reverse_bindings]
  have habsent : ∀ j, j ∉ (lastCalls conf.MaxSize.toNat calls).map SetCall.key →
      (c.run (setOps calls)).Get j = (default, false) := by
    intro j hj
    have : mapGet (c.run (setOps calls)).entries j = none := by
      apply mapGet_of_not_mem_keys
      rw [hkeys]
      simpa using hj
    simp [Cache.Get, this]
  refine ⟨hlen, ?_, habsent, ?_, hQ, ?_, ?_⟩
  · intro s hs
    have : mapGet (c.run (setOps calls)).entries s.key = some s.value := by
      apply mapGet_of_mem
      · exact hself s ((List.drop_sublist _ calls).subset hs)
      · rw [hkeys]
        exact List.nodup_reverse.2 hwnd
      · rw [hE, List.mem_reverse]
        exact List.mem_map_of_mem SetCall.binding hs
    simp [Cache.Get, this]
  · intro s hs
    apply habsent
    have hsplit : calls.map SetCall.key
        = (calls.take (calls.length - conf.MaxSize.toNat)).map SetCall.key
          ++ (lastCalls conf.MaxSize.toNat calls).map SetCall.key := by
      rw [lastCalls, ← List.map_append, List.take_append_drop]
    rw [hsplit, List.nodup_append] at hdist
    exact fun hmem => hdist.2.2 (List.mem_map_of_mem SetCall.key hs) hmem
  · rw [hQ, hE]
    simp [mapLen]
  · rw [hE]
    simp only [mapLen, List.length_reverse, List.length_map, hlen]

end Fifo

/-- Witness of C17, as amended: three `Set` calls with distinct keys on
`boundedCache`, whose `MaxSize` is 2, leave `"b"` and `"c"`. -/
theorem Set_distinct_fifo_witness :
    (∀ s ∈ [({ now := 0, key := "a", value := "1" } : SetCall String String),
      { now := 1, key := "b", value := "2" }, { now := 2, key := "c", value := "3" }],
      comparable.selfEq s.key = true) ∧
    (boundedCache.run (setOps [{ now := 0, key := "a", value := "1" },
      { now := 1, key := "b", value := "2" }, { now := 2, key := "c", value := "3" }])).expiries
    = (lastCalls 2 [({ now := 0, key := "a", value := "1" } : SetCall String String),
      { now := 1, key := "b", value := "2" }, { now := 2, key := "c", value := "3" }]).map
        (SetCall.record 10) :=
  ⟨fun _ _ => rfl,
    (Set_distinct_fifo "c" { TTL := 10, GCInterval := 1, MaxSize := 2 } boundedCache rfl
      (by decide)
      [{ now := 0, key := "a", value := "1" }, { now := 1, key := "b", value := "2" },
        { now := 2, key := "c", value := "3" }] (by decide) (fun _ _ => rfl)).2.2.2.2.1⟩

/-- C17 fails as stated: with `float64` keys and `MaxSize = 1`, after
`Set(NaN, "x")` and `Set(1, "y")`, two calls with distinct keys, the size guard
deletes the head key NaN, which removes nothing: the store holds two entries
where `min(2, 1) = 1`, the queue holds one record, and `Get(NaN)` returns the
zero value and `false`. -/
theorem Set_distinct_fifo_NaN :
    ∃ c : Cache float64 String,
      New float64 String "c" (some { TTL := 10, GCInterval := 1, MaxSize := 1 }) = Except.ok c ∧
      ([({ now := 0, key := float64.NaN, value := "x" } : SetCall float64 String),
        { now := 1, key := float64.ofInt 1, value := "y" }].map SetCall.key).Nodup ∧
      (c.run (setOps [{ now := 0, key := float64.NaN, value := "x" },
        { now := 1, key := float64.ofInt 1, value := "y" }])).entries
        = [(float64.ofInt 1, "y"), (float64.NaN, "x")] ∧
      (c.run (setOps [{ now := 0, key := float64.NaN, value := "x" },
        { now := 1, key := float64.ofInt 1, value := "y" }])).expiries
        = [{ key := float64.ofInt 1, expiry := 11 }] ∧
      ¬ (mapLen (c.run (setOps [{ now := 0, key := float64.NaN, value := "x" },
          { now := 1, key := float64.ofInt 1, value := "y" }])).entries
        = ((c.run (setOps [{ now := 0, key := float64.NaN, value := "x" },
          { now := 1, key := float64.ofInt 1, value := "y" }])).expiries.length : Int)) ∧
      (c.run (setOps [{ now := 0, key := float64.NaN, value := "x" },
        { now := 1, key := float64.ofInt 1, value := "y" }])).Get float64.NaN = ("", false) :=
  ⟨_, rfl, by decide, by decide, by decide, by decide, by decide⟩

end ttlcache
